import Mathlib

/-!
# Verification of the dgraph bulk-loader shuffle stage

This development embeds `cmd/bulkloader/shuffle.go` — the shuffle stage of the
bulk loader — into Lean and proves (or refutes) the specified properties of:

* `bytes.Compare` on keys (unsigned byte-wise lexicographic comparison),
* Go's `container/heap` sift-up / sift-down over the `postingHeap` of the file,
* `shufflePostings` (the k-way merge engine: batching, key-group counting),
* `readMapOutput` (the uvarint length-prefixed stream decoder),
* `mergeMapShardsIntoReduceShards` (the greedy shard balancer), and
* the precondition assertions of `shuffler.run`.

Bytes are modelled as `Nat` (values < 256 in real executions; no property below
depends on the bound), byte slices as `List Nat`, channels as the list of values
they will deliver before being closed.
-/

namespace Shuffle

/-- `bytes.Compare a b` from Go's standard library: lexicographic byte-wise
comparison returning -1, 0 or 1.  (Go compares the common prefix and then the
lengths; this structural recursion computes the same result.) -/
def bytesCompare : List Nat → List Nat → Int
  | [], [] => 0
  | [], _ :: _ => -1
  | _ :: _, [] => 1
  | a :: as, b :: bs =>
    if a < b then -1 else if b < a then 1 else bytesCompare as bs

/-- `keyLe a b` means `bytes.Compare a b <= 0`: key `a` sorts no later than `b`. -/
def keyLe (a b : List Nat) : Prop := bytesCompare a b ≤ 0

/-- `keyLt a b` means `bytes.Compare a b < 0`: key `a` sorts strictly before `b`. -/
def keyLt (a b : List Nat) : Prop := bytesCompare a b < 0

instance (a b : List Nat) : Decidable (keyLe a b) :=
  inferInstanceAs (Decidable (bytesCompare a b ≤ 0))

instance (a b : List Nat) : Decidable (keyLt a b) :=
  inferInstanceAs (Decidable (bytesCompare a b < 0))

theorem bytesCompare_self (a : List Nat) : bytesCompare a a = 0 := by
  induction a with
  | nil => rfl
  | cons x xs ih => simp [bytesCompare, ih]

theorem bytesCompare_eq_zero_iff {a b : List Nat} : bytesCompare a b = 0 ↔ a = b := by
  induction a generalizing b with
  | nil => cases b <;> simp [bytesCompare]
  | cons x xs ih =>
    cases b with
    | nil => simp [bytesCompare]
    | cons y ys =>
      by_cases hxy : x < y
      · simp [bytesCompare, hxy]
        omega
      · by_cases hyx : y < x
        · simp [bytesCompare, hxy, hyx]
          omega
        · have hxyeq : x = y := by omega
          subst hxyeq
          simp [bytesCompare, ih]

theorem bytesCompare_neg {a b : List Nat} : bytesCompare a b = -bytesCompare b a := by
  induction a generalizing b with
  | nil => cases b <;> simp [bytesCompare]
  | cons x xs ih =>
    cases b with
    | nil => simp [bytesCompare]
    | cons y ys =>
      by_cases hxy : x < y
      · have : ¬ y < x := by omega
        simp [bytesCompare, hxy, this]
      · by_cases hyx : y < x
        · simp [bytesCompare, hxy, hyx]
        · simp [bytesCompare, hxy, hyx, ih]

theorem keyLt_trans {a b c : List Nat} (h1 : keyLt a b) (h2 : keyLt b c) : keyLt a c := by
  unfold keyLt at *
  induction a generalizing b c with
  | nil =>
    cases c with
    | nil =>
      cases b with
      | nil => simp [bytesCompare] at h1
      | cons y ys => simp [bytesCompare] at h2
    | cons z zs => simp [bytesCompare]
  | cons x xs ih =>
    cases b with
    | nil => simp [bytesCompare] at h1
    | cons y ys =>
      cases c with
      | nil => simp [bytesCompare] at h2
      | cons z zs =>
        simp only [bytesCompare] at h1 h2 ⊢
        by_cases hxy : x < y
        · -- x < y and y ≤ z gives x < z
          by_cases hyz : y < z
          · have : x < z := by omega
            simp [this]
          · by_cases hzy : z < y
            · simp [hyz, hzy] at h2
            · have : x < z := by omega
              simp [this]
        · by_cases hyx : y < x
          · simp [hxy, hyx] at h1
          · have hxyeq : x = y := by omega
            subst hxyeq
            by_cases hxz : x < z
            · simp [hxz]
            · by_cases hzx : z < x
              · simp [hxz, hzx] at h2
              · simp [hxz, hzx] at h1 h2 ⊢
                exact ih h1 h2

theorem keyLe_refl (a : List Nat) : keyLe a a := by
  unfold keyLe; rw [bytesCompare_self]

theorem keyLe_of_eq {a b : List Nat} (h : a = b) : keyLe a b := h ▸ keyLe_refl a

theorem keyLt_iff_keyLe_ne {a b : List Nat} :
    keyLt a b ↔ keyLe a b ∧ bytesCompare a b ≠ 0 := by
  unfold keyLt keyLe
  omega

theorem keyLe_iff {a b : List Nat} : keyLe a b ↔ keyLt a b ∨ a = b := by
  rw [keyLt_iff_keyLe_ne]
  unfold keyLe
  constructor
  · intro h
    by_cases h0 : bytesCompare a b = 0
    · exact Or.inr (bytesCompare_eq_zero_iff.mp h0)
    · exact Or.inl ⟨h, h0⟩
  · rintro (⟨h, _⟩ | rfl)
    · exact h
    · rw [bytesCompare_self]

theorem keyLe_trans {a b c : List Nat} (h1 : keyLe a b) (h2 : keyLe b c) : keyLe a c := by
  rcases keyLe_iff.mp h1 with h1' | rfl
  · rcases keyLe_iff.mp h2 with h2' | rfl
    · exact keyLe_iff.mpr (Or.inl (keyLt_trans h1' h2'))
    · exact h1
  · exact h2

theorem keyLt_of_keyLt_of_keyLe {a b c : List Nat} (h1 : keyLt a b) (h2 : keyLe b c) :
    keyLt a c := by
  rcases keyLe_iff.mp h2 with h2' | rfl
  · exact keyLt_trans h1 h2'
  · exact h1

theorem keyLt_of_keyLe_of_keyLt {a b c : List Nat} (h1 : keyLe a b) (h2 : keyLt b c) :
    keyLt a c := by
  rcases keyLe_iff.mp h1 with h1' | rfl
  · exact keyLt_trans h1' h2
  · exact h2

theorem keyLe_total (a b : List Nat) : keyLe a b ∨ keyLe b a := by
  unfold keyLe
  rw [bytesCompare_neg (a := b)]
  omega

theorem keyLe_of_not_keyLt {a b : List Nat} (h : ¬ keyLt a b) : keyLe b a := by
  unfold keyLt at h
  unfold keyLe
  rw [bytesCompare_neg (a := b)]
  omega

theorem keyLt_of_keyLe_of_ne {a b : List Nat} (h1 : keyLe a b) (h2 : bytesCompare a b ≠ 0) :
    keyLt a b := keyLt_iff_keyLe_ne.mpr ⟨h1, h2⟩

theorem keyLt_irrefl (a : List Nat) : ¬ keyLt a a := by
  unfold keyLt
  rw [bytesCompare_self]
  omega

theorem keyLt_ne {a b : List Nat} (h : keyLt a b) : a ≠ b := by
  rintro rfl
  exact keyLt_irrefl a h

theorem nil_keyLe (a : List Nat) : keyLe [] a := by
  cases a <;> simp [keyLe, bytesCompare]

/-! ## Data model

A record (protos.MapEntry): a byte key plus an opaque payload standing for the
remaining fields of the message.  Channels deliver pointers to such records;
the records themselves are immutable. -/

/-- protos.MapEntry: the unit of intermediate data, with its ordered byte
key and an opaque payload. -/
structure MapEntry where
  key : List Nat
  payload : List Nat
deriving DecidableEq, Repr

instance : Inhabited MapEntry := ⟨⟨[], []⟩⟩

/-- heapNode from shuffle.go: the record most recently received from a source
channel, together with the rest of that channel's stream (the values it will
deliver before being closed). -/
structure HeapNode where
  mapEntry : MapEntry
  ch : List MapEntry
deriving DecidableEq, Repr

instance : Inhabited HeapNode := ⟨⟨default, []⟩⟩

/-! ## Go's container/heap over postingHeap

postingHeap stores its nodes in a slice, modelled as a List with positional
access.  postingHeap.Less i j compares the node keys with bytes.Compare;
postingHeap.Swap exchanges two positions; Push appends; Pop removes the last
element.  The sift-up (up) and sift-down (down) loops below are the ones from
Go's container/heap package, which shuffle.go uses via heap.Push, heap.Fix
and heap.Pop. -/

/-- Key stored at position i of the node slice. -/
def keyAt (h : List HeapNode) (i : Nat) : List Nat := ((h.getD i default).mapEntry).key

/-- postingHeap.Less i j: bytes.Compare(nodes[i].mapEntry.Key, nodes[j].mapEntry.Key) < 0. -/
def heapLess (h : List HeapNode) (i j : Nat) : Prop := keyLt (keyAt h i) (keyAt h j)

instance (h : List HeapNode) (i j : Nat) : Decidable (heapLess h i j) :=
  inferInstanceAs (Decidable (keyLt (keyAt h i) (keyAt h j)))

/-- postingHeap.Swap i j (h.nodes[i], h.nodes[j] = h.nodes[j], h.nodes[i]). -/
def swapNodes (h : List HeapNode) (i j : Nat) : List HeapNode :=
  (h.set i (h.getD j default)).set j (h.getD i default)

theorem length_swapNodes (h : List HeapNode) (i j : Nat) :
    (swapNodes h i j).length = h.length := by
  simp [swapNodes]

theorem getD_set_self {α : Type} {l : List α} {i : Nat} (hi : i < l.length) (a d : α) :
    (l.set i a).getD i d = a := by
  rw [List.getD_eq_getElem _ _ (by simpa using hi)]
  exact List.getElem_set_self _

theorem getD_set_ne {α : Type} {l : List α} {i j : Nat} (hij : i ≠ j) (a d : α) :
    (l.set i a).getD j d = l.getD j d := by
  by_cases hj : j < l.length
  · rw [List.getD_eq_getElem _ _ (by simpa using hj), List.getD_eq_getElem _ _ hj]
    exact List.getElem_set_ne hij _
  · rw [List.getD_eq_default _ _ (by simpa using (Nat.le_of_not_lt hj)),
      List.getD_eq_default _ _ (Nat.le_of_not_lt hj)]

theorem set_getD_self {α : Type} (l : List α) (i : Nat) (d : α) :
    l.set i (l.getD i d) = l := by
  induction l generalizing i with
  | nil => rfl
  | cons x xs ih =>
    cases i with
    | zero => rfl
    | succ n =>
      have h1 : (x :: xs).getD (n + 1) d = xs.getD n d := by simp [List.getD]
      rw [List.set_cons_succ, h1, ih]

theorem swapNodes_self (h : List HeapNode) (i : Nat) : swapNodes h i i = h := by
  unfold swapNodes
  rw [List.set_set, set_getD_self]

/-- Effect of a swap on the stored nodes, stated through getD. -/
theorem getD_swapNodes {h : List HeapNode} {i j : Nat} (hi : i < h.length)
    (hj : j < h.length) (k : Nat) :
    (swapNodes h i j).getD k default =
      if k = j then h.getD i default
      else if k = i then h.getD j default
      else h.getD k default := by
  by_cases hij : i = j
  · subst hij
    rw [swapNodes_self]
    by_cases hk : k = i
    · subst hk; simp
    · simp [hk]
  · unfold swapNodes
    by_cases hkj : k = j
    · subst hkj
      rw [getD_set_self (by simpa using hj)]
      simp
    · rw [getD_set_ne (Ne.symm hkj)]
      by_cases hki : k = i
      · subst hki
        rw [getD_set_self hi]
        simp [hij]
      · rw [getD_set_ne (Ne.symm hki)]
        simp [hkj, hki]

theorem keyAt_swapNodes {h : List HeapNode} {i j : Nat} (hi : i < h.length)
    (hj : j < h.length) (k : Nat) :
    keyAt (swapNodes h i j) k =
      if k = j then keyAt h i else if k = i then keyAt h j else keyAt h k := by
  unfold keyAt
  rw [getD_swapNodes hi hj]
  split
  · rfl
  · split <;> rfl

theorem cons_add_singleton_comm {α : Type} (M : Multiset α) (u v : α) :
    (u ::ₘ M) + {v} = (v ::ₘ M) + {u} := by
  calc (u ::ₘ M) + {v} = {v} + (u ::ₘ M) := add_comm _ _
    _ = v ::ₘ u ::ₘ M := Multiset.singleton_add v _
    _ = u ::ₘ v ::ₘ M := Multiset.cons_swap v u M
    _ = {u} + (v ::ₘ M) := (Multiset.singleton_add u _).symm
    _ = (v ::ₘ M) + {u} := add_comm _ _

theorem coe_set_add {α : Type} [DecidableEq α] {l : List α} {i : Nat} (hi : i < l.length)
    (a d : α) :
    (↑(l.set i a) : Multiset α) + {l.getD i d} = (↑l : Multiset α) + {a} := by
  induction l generalizing i with
  | nil => simp at hi
  | cons x xs ih =>
    cases i with
    | zero =>
      have h0 : (x :: xs).getD 0 d = x := by simp [List.getD]
      rw [show (x :: xs).set 0 a = a :: xs from rfl, h0, ← Multiset.cons_coe,
        ← Multiset.cons_coe]
      exact cons_add_singleton_comm _ a x
    | succ n =>
      have h1 : (x :: xs).getD (n + 1) d = xs.getD n d := by simp [List.getD]
      rw [List.set_cons_succ, h1]
      have h2 := ih (i := n) (by simpa using hi)
      rw [← Multiset.cons_coe, ← Multiset.cons_coe]
      calc (x ::ₘ (↑(xs.set n a) : Multiset α)) + {xs.getD n d}
          = x ::ₘ ((↑(xs.set n a) : Multiset α) + {xs.getD n d}) := by
            rw [← Multiset.singleton_add x, ← Multiset.singleton_add x, add_assoc]
        _ = x ::ₘ ((↑xs : Multiset α) + {a}) := by rw [h2]
        _ = (x ::ₘ (↑xs : Multiset α)) + {a} := by
            rw [← Multiset.singleton_add x, ← Multiset.singleton_add x, add_assoc]

theorem coe_swapNodes {h : List HeapNode} {i j : Nat} (hi : i < h.length)
    (hj : j < h.length) :
    (↑(swapNodes h i j) : Multiset HeapNode) = (↑h : Multiset HeapNode) := by
  by_cases hij : i = j
  · subst hij; rw [swapNodes_self]
  · have h1 := coe_set_add (l := h) (i := i) hi (h.getD j default) default
    have hj' : j < (h.set i (h.getD j default)).length := by simpa using hj
    have h2 := coe_set_add (l := h.set i (h.getD j default)) (i := j) hj'
      (h.getD i default) default
    rw [getD_set_ne hij] at h2
    exact add_right_cancel (h2.trans h1)

/-- Child index selected by container/heap's down: the left child 2i+1, or the
right child 2i+2 when it exists and compares Less. -/
def pickChild (h : List HeapNode) (i n : Nat) : Nat :=
  if 2*i+2 < n ∧ heapLess h (2*i+2) (2*i+1) then 2*i+2 else 2*i+1

theorem pickChild_bounds {h : List HeapNode} {i n : Nat} (hn : 2*i+1 < n) :
    i < pickChild h i n ∧ pickChild h i n < n := by
  unfold pickChild
  split <;> omega

/-- The loop body of container/heap's down(h, i0, n): repeatedly swap position i
with its smaller child while that child compares Less.  Returns the final slice
and the final index (down itself returns whether the index moved). -/
def downLoop (h : List HeapNode) (i n : Nat) : List HeapNode × Nat :=
  if h1 : 2*i+1 < n then
    if heapLess h (pickChild h i n) i then
      downLoop (swapNodes h i (pickChild h i n)) (pickChild h i n) n
    else (h, i)
  else (h, i)
termination_by n - i
decreasing_by
  have := pickChild_bounds (h := h) (i := i) (n := n) h1
  omega

/-- The loop body of container/heap's up(h, j): swap position j with its parent
while j compares Less than the parent. -/
def upLoop (h : List HeapNode) (j : Nat) : List HeapNode :=
  if hij : (j-1)/2 = j then h
  else if heapLess h j ((j-1)/2) then upLoop (swapNodes h ((j-1)/2) j) ((j-1)/2)
  else h
termination_by j
decreasing_by
  have := Nat.div_le_self (j-1) 2
  omega

/-- heap.Push: append the new node and sift it up from the last position. -/
def heapPush (h : List HeapNode) (x : HeapNode) : List HeapNode :=
  upLoop (h ++ [x]) h.length

/-- heap.Pop as used by shufflePostings (the returned element is discarded):
swap the root with the last element, sift the new root down over the prefix
excluding the last slot, then drop the last element. -/
def heapPop (h : List HeapNode) : List HeapNode :=
  ((downLoop (swapNodes h 0 (h.length - 1)) 0 (h.length - 1)).1).dropLast

/-- heap.Fix i: sift down from i; if the element did not move, sift it up. -/
def heapFix (h : List HeapNode) (i : Nat) : List HeapNode :=
  let p := downLoop h i h.length
  if i < p.2 then p.1 else upLoop p.1 i

theorem downLoop_facts : ∀ (h : List HeapNode) (i n : Nat), n ≤ h.length →
    (downLoop h i n).1.length = h.length ∧
    (↑(downLoop h i n).1 : Multiset HeapNode) = (↑h : Multiset HeapNode) ∧
    (downLoop h i n).1.drop n = h.drop n := by
  intro h i n
  induction h, i, n using downLoop.induct with
  | case1 h i n h1 h2 ih =>
    intro hn
    have hb := pickChild_bounds (h := h) (i := i) (n := n) h1
    have hswlen : (swapNodes h i (pickChild h i n)).length = h.length := length_swapNodes ..
    have hn' : n ≤ (swapNodes h i (pickChild h i n)).length := by omega
    have ih' := ih hn'
    have hi : i < h.length := by omega
    have hj : pickChild h i n < h.length := by omega
    rw [downLoop]
    simp only [h1, h2, dite_true, if_true]
    refine ⟨by rw [ih'.1, hswlen], ?_, ?_⟩
    · rw [ih'.2.1, coe_swapNodes hi hj]
    · rw [ih'.2.2]
      unfold swapNodes
      rw [List.drop_set, List.drop_set]
      simp only [if_pos (show i < n by omega), if_pos (show pickChild h i n < n by omega)]
  | case2 h i n h1 h2 =>
    intro _
    rw [downLoop]
    simp [h1, h2]
  | case3 h i n h1 =>
    intro _
    rw [downLoop]
    simp [h1]

theorem upLoop_facts : ∀ (h : List HeapNode) (j : Nat), j < h.length →
    (upLoop h j).length = h.length ∧
    (↑(upLoop h j) : Multiset HeapNode) = (↑h : Multiset HeapNode) := by
  intro h j
  induction h, j using upLoop.induct with
  | case1 h j hij =>
    intro _
    rw [upLoop]
    simp [hij]
  | case2 h j hij h2 ih =>
    intro hj
    have hp : (j-1)/2 < j := by
      have := Nat.div_le_self (j-1) 2
      omega
    have hswlen : (swapNodes h ((j-1)/2) j).length = h.length := length_swapNodes ..
    have ih' := ih (by omega)
    rw [upLoop]
    simp only [hij, h2, dite_false, if_true]
    exact ⟨by rw [ih'.1, hswlen],
      by rw [ih'.2, coe_swapNodes (by omega) hj]⟩
  | case3 h j hij h2 =>
    intro _
    rw [upLoop]
    simp [hij, h2]

theorem heapPush_length (h : List HeapNode) (x : HeapNode) :
    (heapPush h x).length = h.length + 1 := by
  unfold heapPush
  have := upLoop_facts (h ++ [x]) h.length (by simp)
  simp [this.1]

theorem coe_heapPush (h : List HeapNode) (x : HeapNode) :
    (↑(heapPush h x) : Multiset HeapNode) = x ::ₘ (↑h : Multiset HeapNode) := by
  unfold heapPush
  have := upLoop_facts (h ++ [x]) h.length (by simp)
  rw [this.2]
  have h2 : (↑(h ++ [x]) : Multiset HeapNode) = (↑h : Multiset HeapNode) + {x} := by
    rw [← Multiset.coe_add]
    rfl
  rw [h2, add_comm, Multiset.singleton_add]

theorem coe_heapFix {h : List HeapNode} {i : Nat} (hi : i < h.length) :
    (↑(heapFix h i) : Multiset HeapNode) = (↑h : Multiset HeapNode) ∧
    (heapFix h i).length = h.length := by
  unfold heapFix
  have hd := downLoop_facts h i h.length (Nat.le_refl _)
  by_cases hc : i < (downLoop h i h.length).2
  · simp only [hc, if_true]
    exact ⟨hd.2.1, hd.1⟩
  · simp only [hc, if_false]
    have hu := upLoop_facts (downLoop h i h.length).1 i (by omega)
    exact ⟨hu.2.trans hd.2.1, hu.1.trans hd.1⟩

theorem coe_heapPop (x : HeapNode) (xs : List HeapNode) :
    (↑(heapPop (x :: xs)) : Multiset HeapNode) = (↑xs : Multiset HeapNode) := by
  rcases eq_or_ne xs [] with rfl | hne
  · have e1 : heapPop [x] = [x].dropLast := by
      unfold heapPop
      rw [show ([x] : List HeapNode).length - 1 = 0 from rfl, swapNodes_self]
      rw [show downLoop [x] 0 0 = ([x], 0) from by rw [downLoop]; norm_num]
    rw [e1]
    rfl
  · unfold heapPop
    set h : List HeapNode := x :: xs with hh
    have hlen : h.length = xs.length + 1 := by simp [hh]
    set n : Nat := h.length - 1 with hn
    have hnpos : 0 < n := by
      have := List.length_pos.mpr hne
      omega
    have h0 : 0 < h.length := by omega
    have hnlt : n < h.length := by omega
    set h1 : List HeapNode := swapNodes h 0 n with hh1
    have hlen1 : h1.length = h.length := length_swapNodes ..
    have hd := downLoop_facts h1 0 n (by omega)
    set h2 : List HeapNode := (downLoop h1 0 n).1 with hh2
    have hlen2 : h2.length = h.length := by rw [hd.1, hlen1]
    -- the slot at position n holds the old root and is untouched by the sift
    have hdrop1 : h1.drop n = [h.getD 0 default] := by
      rw [hh1]
      unfold swapNodes
      rw [List.drop_set]
      simp only [if_neg (show ¬ (n < n) by omega)]
      rw [List.drop_set]
      simp only [if_pos hnpos]
      have hdn : h.drop n = [h.getD n default] := by
        rw [List.drop_eq_getElem_cons hnlt]
        have h9 : h.drop (n+1) = [] := by
          apply List.drop_eq_nil_of_le
          omega
        rw [h9, List.getD_eq_getElem _ _ hnlt]
      rw [hdn]
      simp
    have hdrop2 : h2.drop n = [h.getD 0 default] := by rw [hd.2.2, hdrop1]
    have hsplit : (↑(h2.take n) : Multiset HeapNode) + (↑(h2.drop n) : Multiset HeapNode)
        = (↑h2 : Multiset HeapNode) := by
      rw [Multiset.coe_add, List.take_append_drop]
    have hco : (↑h2 : Multiset HeapNode) = (↑h : Multiset HeapNode) := by
      rw [hd.2.1, hh1, coe_swapNodes h0 hnlt]
    have hdl : h2.dropLast = h2.take n := by
      rw [List.dropLast_eq_take, hlen2]
    rw [hdl]
    have hx : h.getD 0 default = x := by rw [hh]; rfl
    have hstep : (↑(h2.take n) : Multiset HeapNode) + {x}
        = (↑xs : Multiset HeapNode) + {x} := by
      rw [← hx]
      calc (↑(h2.take n) : Multiset HeapNode) + {h.getD 0 default}
          = (↑(h2.take n) : Multiset HeapNode) + (↑(h2.drop n) : Multiset HeapNode) := by
            rw [hdrop2]
            rfl
        _ = (↑h2 : Multiset HeapNode) := hsplit
        _ = (↑h : Multiset HeapNode) := hco
        _ = x ::ₘ (↑xs : Multiset HeapNode) := by
            rw [hh]
            exact (Multiset.cons_coe x xs).symm
        _ = (↑xs : Multiset HeapNode) + {h.getD 0 default} := by
            rw [hx, add_comm, Multiset.singleton_add]
    exact add_right_cancel hstep

theorem heapPop_length (x : HeapNode) (xs : List HeapNode) :
    (heapPop (x :: xs)).length = xs.length := by
  have := congrArg Multiset.card (coe_heapPop x xs)
  simpa using this

/-- Total number of records still inside the heap structure: for each node its
current record plus everything left on its channel.  Used as the termination
measure of the merge loop: every iteration removes exactly one record. -/
def heapTotal (h : List HeapNode) : Nat := (h.map (fun nd => nd.ch.length + 1)).sum

theorem heapTotal_congr {h1 h2 : List HeapNode}
    (hc : (↑h1 : Multiset HeapNode) = (↑h2 : Multiset HeapNode)) :
    heapTotal h1 = heapTotal h2 := by
  unfold heapTotal
  have := congrArg (fun m => (Multiset.map (fun nd => nd.ch.length + 1) m).sum) hc
  simpa [Multiset.map_coe, Multiset.sum_coe] using this

theorem heapTotal_cons (nd : HeapNode) (rest : List HeapNode) :
    heapTotal (nd :: rest) = nd.ch.length + 1 + heapTotal rest := by
  simp [heapTotal]

theorem heapTotal_heapFix {h : List HeapNode} (hh : 0 < h.length) :
    heapTotal (heapFix h 0) = heapTotal h :=
  heapTotal_congr (coe_heapFix hh).1

theorem heapTotal_heapPop (x : HeapNode) (xs : List HeapNode) :
    heapTotal (heapPop (x :: xs)) = heapTotal xs :=
  heapTotal_congr (coe_heapPop x xs)

/-! ## The merge engine: shufflePostings

shufflePostings drains the k channels through the posting heap.  Per loop
iteration it reads the root record me, replaces the root by the next record
from the same channel (heap.Fix) or removes it (heap.Pop) when the channel is
closed, reports the size of a key-group to the count indexer when the key
changes, flushes the batch to the output queue when it is full and the key
changed, and appends me to the batch.  After the loop the remaining batch and
key-group are flushed.

The model returns the batches sent to s.output (in emission order) and the
(key, count) pairs passed to ci.addUid (in call order). -/

/-- const batchSize = 1e4 from shufflePostings. -/
def batchSize : Nat := 10000

/-- The merge loop of shufflePostings (lines 161-192 of shuffle.go), with the
loop state made explicit: the heap, the current batch, prevKey, plistLen, and
the batches / addUid calls emitted so far. -/
def shuffleLoop : List HeapNode → List MapEntry → List Nat → Nat →
    List (List MapEntry) → List (List Nat × Nat) →
    List (List MapEntry) × List (List Nat × Nat)
  | [], batch, prevKey, plistLen, outputs, addUids =>
    (if 0 < batch.length then outputs ++ [batch] else outputs,
     if 0 < plistLen then addUids ++ [(prevKey, plistLen)] else addUids)
  | ⟨me, []⟩ :: rest, batch, prevKey, plistLen, outputs, addUids =>
    let addUids' := if bytesCompare prevKey me.key ≠ 0 ∧ 0 < plistLen
      then addUids ++ [(prevKey, plistLen)] else addUids
    let plistLen' := if bytesCompare prevKey me.key ≠ 0 ∧ 0 < plistLen
      then 0 else plistLen
    let outputs' := if batchSize ≤ batch.length ∧ bytesCompare prevKey me.key ≠ 0
      then outputs ++ [batch] else outputs
    let batch' := if batchSize ≤ batch.length ∧ bytesCompare prevKey me.key ≠ 0
      then ([] : List MapEntry) else batch
    shuffleLoop (heapPop (⟨me, []⟩ :: rest)) (batch' ++ [me]) me.key (plistLen' + 1)
      outputs' addUids'
  | ⟨me, e :: chRest⟩ :: rest, batch, prevKey, plistLen, outputs, addUids =>
    let addUids' := if bytesCompare prevKey me.key ≠ 0 ∧ 0 < plistLen
      then addUids ++ [(prevKey, plistLen)] else addUids
    let plistLen' := if bytesCompare prevKey me.key ≠ 0 ∧ 0 < plistLen
      then 0 else plistLen
    let outputs' := if batchSize ≤ batch.length ∧ bytesCompare prevKey me.key ≠ 0
      then outputs ++ [batch] else outputs
    let batch' := if batchSize ≤ batch.length ∧ bytesCompare prevKey me.key ≠ 0
      then ([] : List MapEntry) else batch
    shuffleLoop (heapFix (⟨e, chRest⟩ :: rest) 0) (batch' ++ [me]) me.key (plistLen' + 1)
      outputs' addUids'
termination_by ph => heapTotal ph
decreasing_by
  · rw [heapTotal_heapPop, heapTotal_cons]
    omega
  · rw [heapTotal_heapFix (by simp), heapTotal_cons, heapTotal_cons]
    simp

/-- Result of one run of shufflePostings: the batches handed to the output
queue, the addUid calls, and whether the run panicked. -/
structure ShuffleResult where
  outputs : List (List MapEntry)
  addUids : List (List Nat × Nat)
  panicked : Bool
deriving DecidableEq, Repr

/-- shufflePostings (shuffle.go lines 149-193).  Each input channel is modelled
by the list of records it delivers before being closed.

The initialization loop (line 153) receives one value from every channel and
pushes heapNode{mapEntry: received, ch: ch}.  In Go, receiving from a closed
empty channel yields a nil pointer; that node's Key field is subsequently
dereferenced — inside postingHeap.Less during heap.Push as soon as a second
node is pushed, or at bytes.Compare(prevKey, me.Key) on the first loop
iteration when there is only one stream — so a run with any empty input stream
dies of a nil-pointer panic before any batch is sent or any count reported.
The model returns panicked = true (and the empty emission lists) in that case;
otherwise it runs the merge loop on the heap of first records. -/
def shufflePostings (chs : List (List MapEntry)) : ShuffleResult :=
  if chs.any List.isEmpty then ⟨[], [], true⟩
  else
    let ph := chs.foldl (fun ph ch => heapPush ph ⟨ch.headD default, ch.tail⟩) []
    let r := shuffleLoop ph [] [] 0 [] []
    ⟨r.1, r.2, false⟩

/-! ## The binary min-heap property and its preservation

The heap ordering invariant maintained by container/heap: every parent's key
is no greater than its children's keys (with respect to bytes.Compare). -/

/-- c is a child index of p in the implicit binary tree. -/
def childRel (p c : Nat) : Prop := c = 2*p+1 ∨ c = 2*p+2

/-- The min-heap property on the first n positions. -/
def heapPropN (h : List HeapNode) (n : Nat) : Prop :=
  ∀ p c, c < n → childRel p c → keyLe (keyAt h p) (keyAt h c)

/-- The min-heap property on the whole node slice. -/
def heapProp (h : List HeapNode) : Prop := heapPropN h h.length

theorem heapPropN_root_min {h : List HeapNode} {n : Nat} (hp : heapPropN h n) :
    ∀ j, j < n → keyLe (keyAt h 0) (keyAt h j) := by
  intro j
  induction j using Nat.strong_induction_on with
  | _ j ih =>
    intro hj
    rcases Nat.eq_zero_or_pos j with rfl | hpos
    · exact keyLe_refl _
    · have hparent : childRel ((j-1)/2) j := by unfold childRel; omega
      have h1 := hp ((j-1)/2) j hj hparent
      have h2 := ih ((j-1)/2) (by omega) (by omega)
      exact keyLe_trans h2 h1

/-- Precondition of sift-down at position i (with bound n): all parent-child
pairs hold except those whose parent is i, and i's children are additionally
dominated by i's parent (vacuous when i is the root). -/
def almostHeap (h : List HeapNode) (n i : Nat) : Prop :=
  (∀ p c, c < n → childRel p c → p ≠ i → keyLe (keyAt h p) (keyAt h c)) ∧
  (∀ c, c < n → childRel i c → 1 ≤ i → keyLe (keyAt h ((i-1)/2)) (keyAt h c))

theorem pickChild_childRel (h : List HeapNode) (i n : Nat) :
    childRel i (pickChild h i n) := by
  unfold pickChild childRel
  split
  · right; rfl
  · left; rfl

theorem pickChild_min {h : List HeapNode} {i n : Nat} :
    ∀ c, c < n → childRel i c → keyLe (keyAt h (pickChild h i n)) (keyAt h c) := by
  intro c hc hrel
  unfold pickChild
  by_cases hcond : 2*i+2 < n ∧ heapLess h (2*i+2) (2*i+1)
  · rw [if_pos hcond]
    rcases hrel with rfl | rfl
    · exact keyLe_iff.mpr (Or.inl hcond.2)
    · exact keyLe_refl _
  · rw [if_neg hcond]
    rcases hrel with rfl | rfl
    · exact keyLe_refl _
    · have hnl : ¬ heapLess h (2*i+2) (2*i+1) := fun hl => hcond ⟨hc, hl⟩
      exact keyLe_of_not_keyLt hnl

theorem almostHeap_swap_step {h : List HeapNode} {n i : Nat} (h1 : 2*i+1 < n)
    (hn : n ≤ h.length) (h2 : heapLess h (pickChild h i n) i) (ha : almostHeap h n i) :
    almostHeap (swapNodes h i (pickChild h i n)) n (pickChild h i n) := by
  have hb := pickChild_bounds (h := h) (i := i) (n := n) h1
  have hjch := pickChild_childRel h i n
  have hmin := pickChild_min (h := h) (i := i) (n := n)
  generalize hjg : pickChild h i n = j at hb hjch hmin h2 ⊢
  have hi : i < h.length := by omega
  have hjl : j < h.length := by omega
  have hij : i ≠ j := by omega
  have h2' : keyLt (keyAt h j) (keyAt h i) := h2
  have kswap := keyAt_swapNodes hi hjl
  have kj : keyAt (swapNodes h i j) j = keyAt h i := by rw [kswap j]; simp
  have ki : keyAt (swapNodes h i j) i = keyAt h j := by
    rw [kswap i]
    simp [hij]
  have ko : ∀ k, k ≠ i → k ≠ j → keyAt (swapNodes h i j) k = keyAt h k := by
    intro k hki hkj
    rw [kswap k]
    simp [hki, hkj]
  constructor
  · intro p c hc hrel hpj
    have hcp : p < c := by unfold childRel at hrel; omega
    by_cases hpi : p = i
    · by_cases hcj : c = j
      · rw [hpi, ki, hcj, kj]
        exact keyLe_iff.mpr (Or.inl h2')
      · have hci : c ≠ i := by omega
        rw [hpi, ki, ko c hci hcj]
        exact hmin c hc (hpi ▸ hrel)
    · by_cases hcj : c = j
      · exact absurd (by rw [hcj] at hrel; unfold childRel at hrel hjch; omega) hpi
      · by_cases hci : c = i
        · rw [hci] at hrel
          have hc1 : 1 ≤ i := by unfold childRel at hrel; omega
          have hpar : p = (i-1)/2 := by unfold childRel at hrel; omega
          rw [ko p hpi hpj, hci, ki, hpar]
          exact ha.2 j hb.2 hjch hc1
        · rw [ko p hpi hpj, ko c hci hcj]
          exact ha.1 p c hc hrel hpi
  · intro c hc hrel hj1
    have hij2 : (j-1)/2 = i := by unfold childRel at hjch; omega
    have hcj : c ≠ j := by unfold childRel at hrel; omega
    have hci : c ≠ i := by unfold childRel at hrel; omega
    rw [hij2, ki, ko c hci hcj]
    exact ha.1 j c hc hrel (Ne.symm hij)

theorem downLoop_heapProp : ∀ (h : List HeapNode) (i n : Nat), n ≤ h.length →
    almostHeap h n i → heapPropN (downLoop h i n).1 n := by
  intro h i n
  induction h, i, n using downLoop.induct with
  | case1 h i n h1 h2 ih =>
    intro hn ha
    rw [downLoop, dif_pos h1, if_pos h2]
    exact ih (by rw [length_swapNodes]; exact hn) (almostHeap_swap_step h1 hn h2 ha)
  | case2 h i n h1 h2 =>
    intro hn ha
    rw [downLoop, dif_pos h1, if_neg h2]
    intro p c hc hrel
    by_cases hpi : p = i
    · have hrel' : childRel i c := hpi ▸ hrel
      rw [hpi]
      exact keyLe_trans (keyLe_of_not_keyLt h2) (pickChild_min c hc hrel')
    · exact ha.1 p c hc hrel hpi
  | case3 h i n h1 =>
    intro hn ha
    rw [downLoop, dif_neg h1]
    intro p c hc hrel
    by_cases hpi : p = i
    · exact absurd hc (by rw [hpi] at hrel; unfold childRel at hrel; omega)
    · exact ha.1 p c hc hrel hpi

/-- Precondition of sift-up at position j (with bound n): all parent-child
pairs hold except possibly (parent of j, j), and j's own children are
dominated by j's parent. -/
def upInv (h : List HeapNode) (n j : Nat) : Prop :=
  (∀ p c, c < n → childRel p c → ¬(p = (j-1)/2 ∧ c = j) → keyLe (keyAt h p) (keyAt h c)) ∧
  (∀ c, c < n → childRel j c → keyLe (keyAt h ((j-1)/2)) (keyAt h c))

theorem upInv_swap_step {h : List HeapNode} {j : Nat} (hj : j < h.length)
    (hij : (j-1)/2 ≠ j) (h2 : heapLess h j ((j-1)/2)) (ha : upInv h h.length j) :
    upInv (swapNodes h ((j-1)/2) j) h.length ((j-1)/2) := by
  have hj1 : 1 ≤ j := by
    rcases Nat.eq_zero_or_pos j with rfl | hp
    · simp at hij
    · exact hp
  have hilt : (j-1)/2 < j := by
    have := Nat.div_le_self (j-1) 2
    omega
  generalize hig : (j-1)/2 = i at hij hilt h2 ⊢
  have hijch : childRel i j := by unfold childRel; omega
  have hi : i < h.length := by omega
  have h2' : keyLt (keyAt h j) (keyAt h i) := h2
  have kswap := keyAt_swapNodes hi hj
  have kj : keyAt (swapNodes h i j) j = keyAt h i := by rw [kswap j]; simp
  have ki : keyAt (swapNodes h i j) i = keyAt h j := by
    rw [kswap i]
    simp [show i ≠ j from by omega]
  have ko : ∀ k, k ≠ i → k ≠ j → keyAt (swapNodes h i j) k = keyAt h k := by
    intro k hki hkj
    rw [kswap k]
    simp [hki, hkj]
  have hexc1 : ∀ p c, c ≠ j → ¬(p = (j-1)/2 ∧ c = j) := by
    intro p c hcj hx
    exact hcj hx.2
  constructor
  · intro p c hc hrel hexc
    have hcp : p < c := by unfold childRel at hrel; omega
    by_cases hpi : p = i
    · by_cases hcj : c = j
      · rw [hpi, ki, hcj, kj]
        exact keyLe_iff.mpr (Or.inl h2')
      · have hci : c ≠ i := by omega
        rw [hpi, ki, ko c hci hcj]
        have hic : keyLe (keyAt h i) (keyAt h c) :=
          ha.1 i c hc (hpi ▸ hrel) (hexc1 i c hcj)
        exact keyLe_iff.mpr (Or.inl (keyLt_of_keyLt_of_keyLe h2' hic))
    · by_cases hpj : p = j
      · have hci : c ≠ i := by omega
        have hcj : c ≠ j := by omega
        rw [hpj, kj, ko c hci hcj]
        have := ha.2 c hc (hpj ▸ hrel)
        rw [hig] at this
        exact this
      · by_cases hci : c = i
        · exfalso
          apply hexc
          rw [hci] at hrel
          unfold childRel at hrel
          constructor
          · omega
          · exact hci
        · by_cases hcj : c = j
          · exact absurd (by rw [hcj] at hrel; unfold childRel at hrel hijch; omega) hpi
          · rw [ko p hpi hpj, ko c hci hcj]
            exact ha.1 p c hc hrel (hexc1 p c hcj)
  · intro c hc hrel
    have hcbig : i < c := by unfold childRel at hrel; omega
    by_cases hi0 : i = 0
    · have hq : (i-1)/2 = i := by omega
      rw [hq, ki]
      by_cases hcj : c = j
      · rw [hcj, kj]
        exact keyLe_iff.mpr (Or.inl h2')
      · have hci : c ≠ i := by omega
        rw [ko c hci hcj]
        have hic : keyLe (keyAt h i) (keyAt h c) := ha.1 i c hc hrel (hexc1 i c hcj)
        exact keyLe_iff.mpr (Or.inl (keyLt_of_keyLt_of_keyLe h2' hic))
    · have hqlt : (i-1)/2 < i := by
        have := Nat.div_le_self (i-1) 2
        omega
      have hq : (i-1)/2 ≠ i := by omega
      have hqj : (i-1)/2 ≠ j := by omega
      rw [ko ((i-1)/2) hq hqj]
      have hqi : childRel ((i-1)/2) i := by unfold childRel; omega
      have hqile : keyLe (keyAt h ((i-1)/2)) (keyAt h i) :=
        ha.1 ((i-1)/2) i (by omega) hqi (hexc1 _ i (by omega))
      by_cases hcj : c = j
      · rw [hcj, kj]
        exact hqile
      · have hci : c ≠ i := by omega
        rw [ko c hci hcj]
        have hic : keyLe (keyAt h i) (keyAt h c) := ha.1 i c hc hrel (hexc1 i c hcj)
        exact keyLe_trans hqile hic

theorem upLoop_heapProp : ∀ (h : List HeapNode) (j : Nat), j < h.length →
    upInv h h.length j → heapPropN (upLoop h j) h.length := by
  intro h j
  induction h, j using upLoop.induct with
  | case1 h j hij =>
    intro hj ha
    rw [upLoop, dif_pos hij]
    intro p c hc hrel
    apply ha.1 p c hc hrel
    rintro ⟨hp, rfl⟩
    rw [hij] at hp
    unfold childRel at hrel
    omega
  | case2 h j hij h2 ih =>
    intro hj ha
    rw [upLoop, dif_neg hij, if_pos h2]
    have hlen : (swapNodes h ((j-1)/2) j).length = h.length := length_swapNodes ..
    have hstep := upInv_swap_step hj hij h2 ha
    have hjlt : (j-1)/2 < (swapNodes h ((j-1)/2) j).length := by
      rw [hlen]
      omega
    have := ih hjlt (by rw [hlen]; exact hstep)
    rw [hlen] at this
    exact this
  | case3 h j hij h2 =>
    intro hj ha
    rw [upLoop, dif_neg hij, if_neg h2]
    intro p c hc hrel
    by_cases hexc : p = (j-1)/2 ∧ c = j
    · rw [hexc.1, hexc.2]
      exact keyLe_of_not_keyLt h2
    · exact ha.1 p c hc hrel hexc

theorem upLoop_zero (h : List HeapNode) : upLoop h 0 = h := by
  rw [upLoop, dif_pos]
  rfl

theorem keyAt_take {l : List HeapNode} {n k : Nat} (hk : k < n) :
    keyAt (l.take n) k = keyAt l k := by
  unfold keyAt
  by_cases hkl : k < l.length
  · have ht : k < (l.take n).length := by
      simp only [List.length_take]
      omega
    rw [List.getD_eq_getElem _ _ ht, List.getD_eq_getElem _ _ hkl]
    rw [List.getElem_take]
  · have h1 : l.length ≤ k := Nat.le_of_not_lt hkl
    have h2 : (l.take n).length ≤ k := by
      simp only [List.length_take]
      omega
    rw [List.getD_eq_default _ _ h2, List.getD_eq_default _ _ h1]

theorem keyAt_append_lt {l l2 : List HeapNode} {k : Nat} (hk : k < l.length) :
    keyAt (l ++ l2) k = keyAt l k := by
  unfold keyAt
  rw [List.getD_append _ _ _ _ hk]

theorem heapProp_heapPush {h : List HeapNode} (x : HeapNode) (hp : heapProp h) :
    heapProp (heapPush h x) := by
  have hax : (h ++ [x]).length = h.length + 1 := by simp
  have hui : upInv (h ++ [x]) (h ++ [x]).length h.length := by
    constructor
    · intro p c hc hrel hexc
      by_cases hcl : c = h.length
      · exact absurd ⟨by unfold childRel at hrel; omega, hcl⟩ hexc
      · have hc' : c < h.length := by omega
        have hp' : p < h.length := by unfold childRel at hrel; omega
        rw [keyAt_append_lt hp', keyAt_append_lt hc']
        exact hp p c hc' hrel
    · intro c hc hrel
      unfold childRel at hrel
      omega
  have hres := upLoop_heapProp (h ++ [x]) h.length (by simp) hui
  unfold heapProp
  have hlen : (heapPush h x).length = (h ++ [x]).length := by
    rw [heapPush_length h x, hax]
  rw [hlen]
  exact hres

theorem heapProp_heapFix_root {h : List HeapNode}
    (ha : ∀ p c, c < h.length → childRel p c → p ≠ 0 → keyLe (keyAt h p) (keyAt h c)) :
    heapProp (heapFix h 0) := by
  unfold heapFix
  have hd := downLoop_heapProp h 0 h.length (Nat.le_refl _)
    ⟨ha, by intro c hc hcr h1; omega⟩
  have hdf := downLoop_facts h 0 h.length (Nat.le_refl _)
  by_cases hc : 0 < (downLoop h 0 h.length).2
  · simp only [hc, if_true]
    unfold heapProp
    rw [hdf.1]
    exact hd
  · simp only [hc, if_false]
    rw [upLoop_zero]
    unfold heapProp
    rw [hdf.1]
    exact hd

theorem heapPop_nil : heapPop ([] : List HeapNode) = [] := by
  unfold heapPop
  rw [show swapNodes ([] : List HeapNode) 0 (List.length ([] : List HeapNode) - 1)
      = [] from rfl]
  rw [show downLoop ([] : List HeapNode) 0 (List.length ([] : List HeapNode) - 1)
      = ([], 0) from by rw [downLoop]; norm_num]
  rfl

theorem heapProp_heapPop {h : List HeapNode} (hp : heapProp h) :
    heapProp (heapPop h) := by
  rcases h with _ | ⟨x, xs⟩
  · rw [heapPop_nil]
    intro p c hc hrel
    simp at hc
  · rcases eq_or_ne xs [] with rfl | hne
    · have e1 : heapPop [x] = [x].dropLast := by
        unfold heapPop
        rw [show ([x] : List HeapNode).length - 1 = 0 from rfl, swapNodes_self]
        rw [show downLoop [x] 0 0 = ([x], 0) from by rw [downLoop]; norm_num]
      rw [e1]
      intro p c hc hrel
      simp at hc
    · set h : List HeapNode := x :: xs with hh
      have hlen : h.length = xs.length + 1 := by simp [hh]
      set n : Nat := h.length - 1 with hn
      have hnpos : 0 < n := by
        have := List.length_pos.mpr hne
        omega
      have h0 : 0 < h.length := by omega
      have hnlt : n < h.length := by omega
      have kswap := keyAt_swapNodes (h := h) (i := 0) (j := n) h0 hnlt
      have hal : almostHeap (swapNodes h 0 n) n 0 := by
        constructor
        · intro p c hc hrel hp0
          have hpc : p < c := by unfold childRel at hrel; omega
          have hc0 : c ≠ 0 := by omega
          have hcn : c ≠ n := by omega
          have hpn : p ≠ n := by omega
          rw [kswap p, kswap c]
          simp only [if_neg hpn, if_neg hp0, if_neg hcn, if_neg hc0]
          exact hp p c (by omega) hrel
        · intro c hc hcr h1
          omega
      have hd := downLoop_heapProp (swapNodes h 0 n) 0 n
        (by rw [length_swapNodes]; omega) hal
      have hdf := downLoop_facts (swapNodes h 0 n) 0 n
        (by rw [length_swapNodes]; omega)
      have hlen2 : (downLoop (swapNodes h 0 n) 0 n).1.length = h.length := by
        rw [hdf.1, length_swapNodes]
      show heapProp ((downLoop (swapNodes h 0 n) 0 n).1.dropLast)
      have hdl : (downLoop (swapNodes h 0 n) 0 n).1.dropLast
          = (downLoop (swapNodes h 0 n) 0 n).1.take n := by
        rw [List.dropLast_eq_take, hlen2]
      rw [hdl]
      intro p c hc hrel
      have hcn : c < n := by
        have : ((downLoop (swapNodes h 0 n) 0 n).1.take n).length ≤ n := by
          simp [List.length_take]
        omega
      have hpn : p < n := by unfold childRel at hrel; omega
      rw [keyAt_take hpn, keyAt_take hcn]
      exact hd p c hcn hrel

/-! ## Record-level order, stream order, and the records inside the heap -/

/-- Record comparison induced by the byte keys. -/
def entryLe (a b : MapEntry) : Prop := keyLe a.key b.key

instance (a b : MapEntry) : Decidable (entryLe a b) :=
  inferInstanceAs (Decidable (keyLe a.key b.key))

instance : IsTrans MapEntry entryLe where
  trans := fun _ _ _ h1 h2 => keyLe_trans h1 h2

/-- Strict separation between two batches: every record of the first sorts
strictly before every record of the second. -/
def sepRel (b1 b2 : List MapEntry) : Prop := ∀ e ∈ b1, ∀ e2 ∈ b2, keyLt e.key e2.key

/-- A heap node whose current record does not sort after anything remaining on
its channel (the channel itself being sorted). -/
def nodeSorted (nd : HeapNode) : Prop := List.Chain' entryLe (nd.mapEntry :: nd.ch)

/-- All records still inside the heap: each node's current record plus the
records remaining on its channel. -/
def sysEntries : List HeapNode → Multiset MapEntry
  | [] => 0
  | nd :: rest => (nd.mapEntry ::ₘ (↑nd.ch : Multiset MapEntry)) + sysEntries rest

theorem sysEntries_eq_sum (l : List HeapNode) :
    sysEntries l
      = (l.map (fun nd => nd.mapEntry ::ₘ (↑nd.ch : Multiset MapEntry))).sum := by
  induction l with
  | nil => rfl
  | cons nd rest ih => simp [sysEntries, ih]

theorem sysEntries_congr {h1 h2 : List HeapNode}
    (hc : (↑h1 : Multiset HeapNode) = (↑h2 : Multiset HeapNode)) :
    sysEntries h1 = sysEntries h2 := by
  rw [sysEntries_eq_sum, sysEntries_eq_sum]
  exact List.Perm.sum_eq (List.Perm.map _ (Multiset.coe_eq_coe.mp hc))

theorem mem_sysEntries_cons {e : MapEntry} {nd : HeapNode} {rest : List HeapNode} :
    e ∈ sysEntries (nd :: rest) ↔
      (e = nd.mapEntry ∨ e ∈ nd.ch) ∨ e ∈ sysEntries rest := by
  simp [sysEntries]

theorem chain'_head_le {x : MapEntry} {l : List MapEntry}
    (hc : List.Chain' entryLe (x :: l)) : ∀ e ∈ l, keyLe x.key e.key := by
  have hp := (List.chain'_iff_pairwise (R := entryLe)).mp hc
  intro e he
  exact List.rel_of_pairwise_cons hp he

/-- The record at the heap root sorts no later than every record still inside
the heap: min-heap property for the node records, stream order for channels. -/
theorem exists_node_of_mem_sysEntries {e : MapEntry} :
    ∀ {l : List HeapNode}, e ∈ sysEntries l → ∃ x ∈ l, e = x.mapEntry ∨ e ∈ x.ch := by
  intro l
  induction l with
  | nil =>
    intro he
    simp [sysEntries] at he
  | cons y ys ih =>
    intro he
    rcases mem_sysEntries_cons.mp he with hy | hys
    · exact ⟨y, List.mem_cons_self y ys, hy⟩
    · rcases ih hys with ⟨x, hx, hxe⟩
      exact ⟨x, List.mem_cons_of_mem y hx, hxe⟩

theorem root_le_sysEntries {nd : HeapNode} {rest : List HeapNode}
    (hp : heapProp (nd :: rest)) (hs : ∀ x ∈ nd :: rest, nodeSorted x) :
    ∀ e ∈ sysEntries (nd :: rest), keyLe nd.mapEntry.key e.key := by
  intro e he
  have hroot : ∀ x ∈ nd :: rest, keyLe nd.mapEntry.key x.mapEntry.key := by
    intro x hx
    rcases List.mem_iff_getElem.mp hx with ⟨k, hk, hget⟩
    have h0 := heapPropN_root_min hp k hk
    have e0 : keyAt (nd :: rest) 0 = nd.mapEntry.key := rfl
    have ek : keyAt (nd :: rest) k = x.mapEntry.key := by
      unfold keyAt
      rw [List.getD_eq_getElem _ _ hk, hget]
    rw [e0, ek] at h0
    exact h0
  rcases exists_node_of_mem_sysEntries he with ⟨x, hx, rfl | hch⟩
  · exact hroot x hx
  · have h1 := hroot x hx
    have h2 := chain'_head_le (hs x hx) _ hch
    exact keyLe_trans h1 h2

/-! Step facts: the effect of one merge-loop iteration on the heap. -/

theorem step_pop_facts {me : MapEntry} {rest : List HeapNode}
    (hp : heapProp (⟨me, []⟩ :: rest)) (hs : ∀ x ∈ (⟨me, []⟩ :: rest : List HeapNode), nodeSorted x) :
    sysEntries ((⟨me, []⟩ :: rest : List HeapNode))
        = me ::ₘ sysEntries (heapPop (⟨me, []⟩ :: rest)) ∧
    heapProp (heapPop (⟨me, []⟩ :: rest)) ∧
    (∀ x ∈ heapPop (⟨me, []⟩ :: rest), nodeSorted x) ∧
    (∀ e ∈ sysEntries (heapPop (⟨me, []⟩ :: rest)), keyLe me.key e.key) := by
  have hcoe := coe_heapPop (⟨me, []⟩ : HeapNode) rest
  have hsys : sysEntries (heapPop (⟨me, []⟩ :: rest)) = sysEntries rest :=
    sysEntries_congr hcoe
  have hsys2 : sysEntries ((⟨me, []⟩ :: rest : List HeapNode))
      = me ::ₘ sysEntries (heapPop (⟨me, []⟩ :: rest)) := by
    rw [hsys]
    simp [sysEntries]
  refine ⟨hsys2, heapProp_heapPop hp, ?_, ?_⟩
  · intro x hx
    have : x ∈ rest := (List.Perm.mem_iff (Multiset.coe_eq_coe.mp hcoe)).mp hx
    exact hs x (List.mem_cons_of_mem _ this)
  · intro e he
    apply root_le_sysEntries hp hs
    rw [hsys2]
    exact Multiset.mem_cons_of_mem he

theorem step_fix_facts {me e0 : MapEntry} {chRest : List MapEntry} {rest : List HeapNode}
    (hp : heapProp (⟨me, e0 :: chRest⟩ :: rest))
    (hs : ∀ x ∈ (⟨me, e0 :: chRest⟩ :: rest : List HeapNode), nodeSorted x) :
    sysEntries ((⟨me, e0 :: chRest⟩ :: rest : List HeapNode))
        = me ::ₘ sysEntries (heapFix (⟨e0, chRest⟩ :: rest) 0) ∧
    heapProp (heapFix (⟨e0, chRest⟩ :: rest) 0) ∧
    (∀ x ∈ heapFix (⟨e0, chRest⟩ :: rest) 0, nodeSorted x) ∧
    (∀ e ∈ sysEntries (heapFix (⟨e0, chRest⟩ :: rest) 0), keyLe me.key e.key) := by
  have hcoe := (coe_heapFix (h := ⟨e0, chRest⟩ :: rest) (i := 0) (by simp)).1
  have hsys : sysEntries (heapFix (⟨e0, chRest⟩ :: rest) 0)
      = sysEntries ((⟨e0, chRest⟩ :: rest : List HeapNode)) := sysEntries_congr hcoe
  have hsys2 : sysEntries ((⟨me, e0 :: chRest⟩ :: rest : List HeapNode))
      = me ::ₘ sysEntries (heapFix (⟨e0, chRest⟩ :: rest) 0) := by
    rw [hsys]
    simp [sysEntries, Multiset.cons_add, ← Multiset.cons_coe]
  have hfix : heapProp (heapFix (⟨e0, chRest⟩ :: rest) 0) := by
    apply heapProp_heapFix_root
    intro p c hc hrel hp0
    have hkp : keyAt ((⟨e0, chRest⟩ :: rest : List HeapNode)) p
        = keyAt ((⟨me, e0 :: chRest⟩ :: rest : List HeapNode)) p := by
      unfold keyAt
      rcases Nat.exists_eq_succ_of_ne_zero hp0 with ⟨m, rfl⟩
      rfl
    have hc0 : c ≠ 0 := by unfold childRel at hrel; omega
    have hkc : keyAt ((⟨e0, chRest⟩ :: rest : List HeapNode)) c
        = keyAt ((⟨me, e0 :: chRest⟩ :: rest : List HeapNode)) c := by
      unfold keyAt
      rcases Nat.exists_eq_succ_of_ne_zero hc0 with ⟨m, rfl⟩
      rfl
    rw [hkp, hkc]
    exact hp p c (by simpa using hc) hrel
  refine ⟨hsys2, hfix, ?_, ?_⟩
  · intro x hx
    have hx' : x ∈ (⟨e0, chRest⟩ :: rest : List HeapNode) :=
      (List.Perm.mem_iff (Multiset.coe_eq_coe.mp hcoe)).mp hx
    rcases List.mem_cons.mp hx' with rfl | hxr
    · have hms := hs ⟨me, e0 :: chRest⟩ (List.mem_cons_self _ _)
      unfold nodeSorted at hms ⊢
      exact hms.tail
    · exact hs x (List.mem_cons_of_mem _ hxr)
  · intro e he
    apply root_le_sysEntries hp hs
    rw [hsys2]
    exact Multiset.mem_cons_of_mem he

end Shuffle

namespace Shuffle

/-! ## Counting records per key -/

/-- Number of records with key k in a list of records. -/
def countKey (k : List Nat) (l : List MapEntry) : Nat :=
  (l.filter (fun e => decide (e.key = k))).length

theorem countKey_append (k : List Nat) (l1 l2 : List MapEntry) :
    countKey k (l1 ++ l2) = countKey k l1 + countKey k l2 := by
  simp [countKey, List.filter_append]

theorem countKey_singleton_eq {k : List Nat} {e : MapEntry} (h : e.key = k) :
    countKey k [e] = 1 := by
  simp [countKey, h]

theorem countKey_singleton_ne {k : List Nat} {e : MapEntry} (h : e.key ≠ k) :
    countKey k [e] = 0 := by
  simp [countKey, h]

theorem countKey_eq_zero_of {k : List Nat} {l : List MapEntry}
    (h : ∀ e ∈ l, e.key ≠ k) : countKey k l = 0 := by
  unfold countKey
  rw [List.filter_eq_nil_iff.mpr (by simpa using h)]
  rfl

theorem countKey_pos {k : List Nat} {l : List MapEntry} {e : MapEntry}
    (he : e ∈ l) (hk : e.key = k) : 0 < countKey k l := by
  unfold countKey
  rw [List.length_pos]
  exact List.ne_nil_of_mem (List.mem_filter.mpr ⟨he, by simp [hk]⟩)

/-- In a sorted run whose last record has key k, every record's key is ≤ k. -/
theorem sorted_le_last : ∀ {l : List MapEntry} {k : List Nat},
    List.Chain' entryLe l → (∀ e, l.getLast? = some e → e.key = k) →
    ∀ e ∈ l, keyLe e.key k := by
  intro l
  induction l with
  | nil => simp
  | cons x xs ih =>
    intro k hc hl e he
    cases xs with
    | nil =>
      rcases List.mem_singleton.mp he with rfl
      exact keyLe_of_eq (hl e rfl)
    | cons y ys =>
      have hc' : List.Chain' entryLe (y :: ys) := hc.tail
      have hl' : ∀ e2, (y :: ys).getLast? = some e2 → e2.key = k := by
        intro e2 he2
        apply hl
        rw [List.getLast?_cons_cons]
        exact he2
      rcases List.mem_cons.mp he with rfl | hm
      · have h1 : entryLe e y := (List.chain'_cons.mp hc).1
        have h2 := ih hc' hl' y (List.mem_cons_self _ _)
        exact keyLe_trans h1 h2
      · exact ih hc' hl' e hm

/-! ## Master induction 1: batch sizes (mid-run flushes are full batches) -/

theorem shuffleLoop_batchSizes :
    ∀ (ph : List HeapNode) (batch : List MapEntry) (prevKey : List Nat) (plistLen : Nat)
      (outputs : List (List MapEntry)) (addUids : List (List Nat × Nat)),
      (∀ b ∈ outputs, batchSize ≤ b.length) →
      (∀ b ∈ (shuffleLoop ph batch prevKey plistLen outputs addUids).1.dropLast,
        batchSize ≤ b.length) ∧
      (∀ b ∈ (shuffleLoop ph batch prevKey plistLen outputs addUids).1, 0 < b.length) := by
  intro ph batch prevKey plistLen outputs addUids
  induction ph, batch, prevKey, plistLen, outputs, addUids using shuffleLoop.induct with
  | case1 batch prevKey plistLen outputs addUids =>
    intro hout
    rw [shuffleLoop]
    by_cases hb : 0 < batch.length
    · rw [if_pos hb]
      constructor
      · intro b hbm
        rw [List.dropLast_concat] at hbm
        exact hout b hbm
      · intro b hbm
        rcases List.mem_append.mp hbm with hbo | hbb
        · have := hout b hbo
          have : (0 : Nat) < batchSize := by decide
          omega
        · rcases List.mem_singleton.mp hbb with rfl
          exact hb
    · rw [if_neg hb]
      constructor
      · intro b hbm
        exact hout b (List.dropLast_sublist _ |>.subset hbm)
      · intro b hbm
        have := hout b hbm
        have : (0 : Nat) < batchSize := by decide
        omega
  | case2 me rest batch prevKey plistLen outputs addUids addUids' plistLen' outputs' batch' ih =>
    intro hout
    rw [shuffleLoop]
    apply ih
    intro b hb
    have ho : outputs' = (if batchSize ≤ batch.length ∧ bytesCompare prevKey me.key ≠ 0
      then outputs ++ [batch] else outputs) := rfl
    rw [ho] at hb
    by_cases hc : batchSize ≤ batch.length ∧ bytesCompare prevKey me.key ≠ 0
    · rw [if_pos hc] at hb
      rcases List.mem_append.mp hb with hbo | hbb
      · exact hout b hbo
      · rcases List.mem_singleton.mp hbb with rfl
        exact hc.1
    · rw [if_neg hc] at hb
      exact hout b hb
  | case3 me e0 chRest rest batch prevKey plistLen outputs addUids addUids' plistLen' outputs' batch' ih =>
    intro hout
    rw [shuffleLoop]
    apply ih
    intro b hb
    have ho : outputs' = (if batchSize ≤ batch.length ∧ bytesCompare prevKey me.key ≠ 0
      then outputs ++ [batch] else outputs) := rfl
    rw [ho] at hb
    by_cases hc : batchSize ≤ batch.length ∧ bytesCompare prevKey me.key ≠ 0
    · rw [if_pos hc] at hb
      rcases List.mem_append.mp hb with hbo | hbb
      · exact hout b hbo
      · rcases List.mem_singleton.mp hbb with rfl
        exact hc.1
    · rw [if_neg hc] at hb
      exact hout b hb

end Shuffle

namespace Shuffle

/-! ## Master induction 2: the merge loop emits exactly the records it consumes -/

theorem sysEntries_step_pop (me : MapEntry) (rest : List HeapNode) :
    sysEntries ((⟨me, []⟩ :: rest : List HeapNode))
      = me ::ₘ sysEntries (heapPop (⟨me, []⟩ :: rest)) := by
  rw [sysEntries_congr (coe_heapPop (⟨me, []⟩ : HeapNode) rest)]
  simp [sysEntries]

theorem sysEntries_step_fix (me e0 : MapEntry) (chRest : List MapEntry)
    (rest : List HeapNode) :
    sysEntries ((⟨me, e0 :: chRest⟩ :: rest : List HeapNode))
      = me ::ₘ sysEntries (heapFix (⟨e0, chRest⟩ :: rest) 0) := by
  rw [sysEntries_congr (coe_heapFix (h := ⟨e0, chRest⟩ :: rest) (i := 0) (by simp)).1]
  simp [sysEntries, Multiset.cons_add, ← Multiset.cons_coe]

theorem flatten_flush (outputs : List (List MapEntry)) (batch batch' : List MapEntry)
    (c : Prop) [Decidable c]
    (ho : batch' = (if c then outputs ++ [batch] else outputs).flatten
      ++ (if c then ([] : List MapEntry) else batch)) :
    batch' = outputs.flatten ++ batch := by
  by_cases hc : c
  · rw [ho, if_pos hc, if_pos hc, List.flatten_append]
    simp
  · rw [ho, if_neg hc, if_neg hc]

theorem shuffleLoop_entries :
    ∀ (ph : List HeapNode) (batch : List MapEntry) (prevKey : List Nat) (plistLen : Nat)
      (outputs : List (List MapEntry)) (addUids : List (List Nat × Nat)),
      (↑(shuffleLoop ph batch prevKey plistLen outputs addUids).1.flatten
          : Multiset MapEntry)
        = (↑(outputs.flatten ++ batch) : Multiset MapEntry) + sysEntries ph := by
  intro ph batch prevKey plistLen outputs addUids
  induction ph, batch, prevKey, plistLen, outputs, addUids using shuffleLoop.induct with
  | case1 batch prevKey plistLen outputs addUids =>
    rw [shuffleLoop]
    show (↑(if 0 < batch.length then outputs ++ [batch] else outputs).flatten
        : Multiset MapEntry) = _
    by_cases hb : 0 < batch.length
    · rw [if_pos hb, List.flatten_append]
      simp [sysEntries]
    · rw [if_neg hb]
      have : batch = [] := by
        cases batch with
        | nil => rfl
        | cons x xs => simp at hb
      rw [this]
      simp [sysEntries]
  | case2 me rest batch prevKey plistLen outputs addUids addUids' plistLen' outputs' batch' ih =>
    rw [shuffleLoop]
    have hE : outputs'.flatten ++ batch' = outputs.flatten ++ batch := by
      apply flatten_flush outputs batch _
        (c := batchSize ≤ batch.length ∧ bytesCompare prevKey me.key ≠ 0)
      rfl
    calc (↑(shuffleLoop (heapPop (⟨me, []⟩ :: rest)) (batch' ++ [me]) me.key
          (plistLen' + 1) outputs' addUids').1.flatten : Multiset MapEntry)
        = (↑(outputs'.flatten ++ (batch' ++ [me])) : Multiset MapEntry)
          + sysEntries (heapPop (⟨me, []⟩ :: rest)) := ih
      _ = (↑((outputs'.flatten ++ batch') ++ [me]) : Multiset MapEntry)
          + sysEntries (heapPop (⟨me, []⟩ :: rest)) := by rw [List.append_assoc]
      _ = (↑(outputs.flatten ++ batch) : Multiset MapEntry)
          + (me ::ₘ sysEntries (heapPop (⟨me, []⟩ :: rest))) := by
          rw [hE, ← Multiset.coe_add, add_assoc]
          congr 1
      _ = (↑(outputs.flatten ++ batch) : Multiset MapEntry)
          + sysEntries ((⟨me, []⟩ :: rest : List HeapNode)) := by
          rw [sysEntries_step_pop]
  | case3 me e0 chRest rest batch prevKey plistLen outputs addUids addUids' plistLen' outputs' batch' ih =>
    rw [shuffleLoop]
    have hE : outputs'.flatten ++ batch' = outputs.flatten ++ batch := by
      apply flatten_flush outputs batch _
        (c := batchSize ≤ batch.length ∧ bytesCompare prevKey me.key ≠ 0)
      rfl
    calc (↑(shuffleLoop (heapFix (⟨e0, chRest⟩ :: rest) 0) (batch' ++ [me]) me.key
          (plistLen' + 1) outputs' addUids').1.flatten : Multiset MapEntry)
        = (↑(outputs'.flatten ++ (batch' ++ [me])) : Multiset MapEntry)
          + sysEntries (heapFix (⟨e0, chRest⟩ :: rest) 0) := ih
      _ = (↑((outputs'.flatten ++ batch') ++ [me]) : Multiset MapEntry)
          + sysEntries (heapFix (⟨e0, chRest⟩ :: rest) 0) := by rw [List.append_assoc]
      _ = (↑(outputs.flatten ++ batch) : Multiset MapEntry)
          + (me ::ₘ sysEntries (heapFix (⟨e0, chRest⟩ :: rest) 0)) := by
          rw [hE, ← Multiset.coe_add, add_assoc]
          congr 1
      _ = (↑(outputs.flatten ++ batch) : Multiset MapEntry)
          + sysEntries ((⟨me, e0 :: chRest⟩ :: rest : List HeapNode)) := by
          rw [sysEntries_step_fix]

end Shuffle

namespace Shuffle

/-! ## Master induction 3: order, batch separation and key-group counting

The invariant carried through the merge loop, and its preservation by one
iteration (inv_step below).  E denotes the records emitted so far, in order:
the flushed batches followed by the current batch. -/

theorem flatten_base (outputs : List (List MapEntry)) (batch : List MapEntry) :
    (if 0 < batch.length then outputs ++ [batch] else outputs).flatten
      = outputs.flatten ++ batch := by
  by_cases hb : 0 < batch.length
  · rw [if_pos hb, List.flatten_append]
    simp
  · rw [if_neg hb]
    have hn : batch = [] := by
      cases batch with
      | nil => rfl
      | cons x xs => simp at hb
    rw [hn]
    simp


theorem inv_step
    {me : MapEntry} {batch : List MapEntry} {prevKey : List Nat}
    {plistLen : Nat} {outputs : List (List MapEntry)} {addUids : List (List Nat × Nat)}
    {addUids' : List (List Nat × Nat)} {plistLen' : Nat} {outputs' : List (List MapEntry)}
    {batch' : List MapEntry}
    (eA : addUids' = if bytesCompare prevKey me.key ≠ 0 ∧ 0 < plistLen
      then addUids ++ [(prevKey, plistLen)] else addUids)
    (eP : plistLen' = if bytesCompare prevKey me.key ≠ 0 ∧ 0 < plistLen then 0 else plistLen)
    (eO : outputs' = if batchSize ≤ batch.length ∧ bytesCompare prevKey me.key ≠ 0
      then outputs ++ [batch] else outputs)
    (eB : batch' = if batchSize ≤ batch.length ∧ bytesCompare prevKey me.key ≠ 0
      then ([] : List MapEntry) else batch)
    (hmepk : keyLe prevKey me.key)
    (hE : List.Chain' entryLe (outputs.flatten ++ batch))
    (hlast : ∀ e, (outputs.flatten ++ batch).getLast? = some e → e.key = prevKey)
    (hcnt : plistLen = countKey prevKey (outputs.flatten ++ batch))
    (hainc : List.Chain' (fun p q => keyLt p.1 q.1) addUids)
    (halt : ∀ p ∈ addUids, keyLt p.1 prevKey)
    (hacnt : ∀ p ∈ addUids, p.2 = countKey p.1 (outputs.flatten ++ batch))
    (hacover : ∀ e ∈ outputs.flatten ++ batch,
      e.key = prevKey ∨ ∃ c, (e.key, c) ∈ addUids)
    (hsep1 : List.Pairwise sepRel outputs)
    (hsep2 : ∀ b ∈ outputs, sepRel b batch)
    (hob : outputs ≠ [] → batch ≠ []) :
    List.Chain' entryLe (outputs'.flatten ++ (batch' ++ [me])) ∧
    (∀ e, (outputs'.flatten ++ (batch' ++ [me])).getLast? = some e → e.key = me.key) ∧
    plistLen' + 1 = countKey me.key (outputs'.flatten ++ (batch' ++ [me])) ∧
    List.Chain' (fun p q => keyLt p.1 q.1) addUids' ∧
    (∀ p ∈ addUids', keyLt p.1 me.key) ∧
    (∀ p ∈ addUids', p.2 = countKey p.1 (outputs'.flatten ++ (batch' ++ [me]))) ∧
    (∀ e ∈ outputs'.flatten ++ (batch' ++ [me]),
      e.key = me.key ∨ ∃ c, (e.key, c) ∈ addUids') ∧
    List.Pairwise sepRel outputs' ∧
    (∀ b ∈ outputs', sepRel b (batch' ++ [me])) ∧
    (outputs' ≠ [] → batch' ++ [me] ≠ []) := by
  have hF : outputs'.flatten ++ batch' = outputs.flatten ++ batch := by
    apply flatten_flush outputs batch _
      (c := batchSize ≤ batch.length ∧ bytesCompare prevKey me.key ≠ 0)
    rw [eO, eB]
  have hE' : outputs'.flatten ++ (batch' ++ [me])
      = (outputs.flatten ++ batch) ++ [me] := by
    rw [← List.append_assoc, hF]
  have fEle : ∀ e ∈ outputs.flatten ++ batch, keyLe e.key prevKey :=
    sorted_le_last hE hlast
  have hcntE : countKey me.key ((outputs.flatten ++ batch) ++ [me])
      = countKey me.key (outputs.flatten ++ batch) + 1 := by
    rw [countKey_append, countKey_singleton_eq rfl]
  -- (A) global sortedness of the run extended by me
  have cA : List.Chain' entryLe (outputs'.flatten ++ (batch' ++ [me])) := by
    rw [hE', List.chain'_append]
    refine ⟨hE, List.chain'_singleton me, ?_⟩
    intro x hx y hy
    have hxk : x.key = prevKey := hlast x (Option.mem_def.mp hx)
    have hy' : y = me := by
      have := Option.mem_def.mp hy
      simpa using this.symm
    rw [hy']
    show keyLe x.key me.key
    rw [hxk]
    exact hmepk
  -- (B) the last emitted record is me
  have cB : ∀ e, (outputs'.flatten ++ (batch' ++ [me])).getLast? = some e
      → e.key = me.key := by
    intro e he
    rw [hE', List.getLast?_concat] at he
    rw [← Option.some_inj.mp he]
  -- (C) plistLen' + 1 counts me.key in the extended run
  have cC : plistLen' + 1 = countKey me.key (outputs'.flatten ++ (batch' ++ [me])) := by
    rw [hE', hcntE]
    congr 1
    by_cases hkc : bytesCompare prevKey me.key ≠ 0
    · have hlt : keyLt prevKey me.key := keyLt_of_keyLe_of_ne hmepk hkc
      have hme0 : countKey me.key (outputs.flatten ++ batch) = 0 := by
        apply countKey_eq_zero_of
        intro e heE
        exact keyLt_ne (keyLt_of_keyLe_of_keyLt (fEle e heE) hlt)
      have hpl0 : plistLen' = 0 := by
        rw [eP]
        by_cases hp0 : 0 < plistLen
        · rw [if_pos ⟨hkc, hp0⟩]
        · rw [if_neg (fun hx => hp0 hx.2)]
          omega
      rw [hpl0, hme0]
    · have hpk_eq : prevKey = me.key := bytesCompare_eq_zero_iff.mp (not_not.mp hkc)
      rw [eP, if_neg (fun hx => hkc hx.1), hcnt, hpk_eq]
  -- (D) reported keys stay strictly increasing
  have cD : List.Chain' (fun p q => keyLt p.1 q.1) addUids' := by
    by_cases hrep : bytesCompare prevKey me.key ≠ 0 ∧ 0 < plistLen
    · rw [eA, if_pos hrep, List.chain'_append]
      refine ⟨hainc, List.chain'_singleton _, ?_⟩
      intro p hp q hq
      have hq' : q = (prevKey, plistLen) := by
        have := Option.mem_def.mp hq
        simpa using this.symm
      rw [hq']
      exact halt p (List.mem_of_mem_getLast? hp)
    · rw [eA, if_neg hrep]
      exact hainc
  -- (E) every reported key is strictly below the new prevKey (me.key)
  have cE : ∀ p ∈ addUids', keyLt p.1 me.key := by
    intro p hp
    by_cases hrep : bytesCompare prevKey me.key ≠ 0 ∧ 0 < plistLen
    · rw [eA, if_pos hrep] at hp
      rcases List.mem_append.mp hp with hpo | hpn
      · exact keyLt_of_keyLt_of_keyLe (halt p hpo) hmepk
      · have hp' : p = (prevKey, plistLen) := by simpa using hpn
        rw [hp']
        exact keyLt_of_keyLe_of_ne hmepk hrep.1
    · rw [eA, if_neg hrep] at hp
      exact keyLt_of_keyLt_of_keyLe (halt p hp) hmepk
  -- (F) every reported count is exact over the extended run
  have cF : ∀ p ∈ addUids', p.2 = countKey p.1 (outputs'.flatten ++ (batch' ++ [me])) := by
    intro p hp
    have hne : me.key ≠ p.1 := Ne.symm (keyLt_ne (cE p hp))
    rw [hE', countKey_append, countKey_singleton_ne hne, Nat.add_zero]
    by_cases hrep : bytesCompare prevKey me.key ≠ 0 ∧ 0 < plistLen
    · rw [eA, if_pos hrep] at hp
      rcases List.mem_append.mp hp with hpo | hpn
      · exact hacnt p hpo
      · have hp' : p = (prevKey, plistLen) := by simpa using hpn
        rw [hp']
        exact hcnt
    · rw [eA, if_neg hrep] at hp
      exact hacnt p hp
  -- (G) every emitted record's key-group is pending or already reported
  have cG : ∀ e ∈ outputs'.flatten ++ (batch' ++ [me]),
      e.key = me.key ∨ ∃ c, (e.key, c) ∈ addUids' := by
    intro e he
    rw [hE'] at he
    rcases List.mem_append.mp he with heE | hemem
    · rcases hacover e heE with hkeq | ⟨c, hc⟩
      · by_cases hkc : bytesCompare prevKey me.key ≠ 0
        · by_cases hp0 : 0 < plistLen
          · right
            refine ⟨plistLen, ?_⟩
            rw [eA, if_pos ⟨hkc, hp0⟩, hkeq]
            exact List.mem_append_right _ (List.mem_singleton.mpr rfl)
          · exfalso
            have := countKey_pos heE hkeq
            omega
        · left
          rw [hkeq, bytesCompare_eq_zero_iff.mp (not_not.mp hkc)]
      · right
        refine ⟨c, ?_⟩
        by_cases hrep : bytesCompare prevKey me.key ≠ 0 ∧ 0 < plistLen
        · rw [eA, if_pos hrep]
          exact List.mem_append_left _ hc
        · rw [eA, if_neg hrep]
          exact hc
    · left
      have : e = me := by simpa using hemem
      rw [this]
  -- (H) flushed batches remain pairwise strictly separated
  have cH : List.Pairwise sepRel outputs' := by
    by_cases hfl : batchSize ≤ batch.length ∧ bytesCompare prevKey me.key ≠ 0
    · rw [eO, if_pos hfl, List.pairwise_append]
      refine ⟨hsep1, List.pairwise_singleton _ _, ?_⟩
      intro a ha b hb
      rcases List.mem_singleton.mp hb with rfl
      exact hsep2 a ha
    · rw [eO, if_neg hfl]
      exact hsep1
  -- flushed batches sort strictly before me
  have houtme : ∀ b ∈ outputs, ∀ e ∈ b, keyLt e.key me.key := by
    intro b hb e heb
    have hone : outputs ≠ [] := List.ne_nil_of_mem hb
    rcases List.exists_mem_of_ne_nil batch (hob hone) with ⟨b0, hb0⟩
    have h1 : keyLt e.key b0.key := hsep2 b hb e heb b0 hb0
    have h2 : keyLe b0.key prevKey := fEle b0 (List.mem_append_right _ hb0)
    exact keyLt_of_keyLt_of_keyLe (keyLt_of_keyLt_of_keyLe h1 h2) hmepk
  -- (I) flushed batches sort strictly before the new current batch
  have cI : ∀ b ∈ outputs', sepRel b (batch' ++ [me]) := by
    intro b hb e heb e2 he2
    by_cases hfl : batchSize ≤ batch.length ∧ bytesCompare prevKey me.key ≠ 0
    · rw [eO, if_pos hfl] at hb
      rw [eB, if_pos hfl] at he2
      have he2' : e2 = me := by simpa using he2
      rw [he2']
      rcases List.mem_append.mp hb with hbo | hbb
      · exact houtme b hbo e heb
      · rcases List.mem_singleton.mp hbb with rfl
        have h1 : keyLe e.key prevKey := fEle e (List.mem_append_right _ heb)
        exact keyLt_of_keyLe_of_keyLt h1 (keyLt_of_keyLe_of_ne hmepk hfl.2)
    · rw [eO, if_neg hfl] at hb
      rw [eB, if_neg hfl] at he2
      rcases List.mem_append.mp he2 with he2b | he2m
      · exact hsep2 b hb e heb e2 he2b
      · have he2' : e2 = me := by simpa using he2m
        rw [he2']
        exact houtme b hb e heb
  exact ⟨cA, cB, cC, cD, cE, cF, cG, cH, cI, by intro hx; simp⟩

end Shuffle

namespace Shuffle

theorem shuffleLoop_order :
    ∀ (ph : List HeapNode) (batch : List MapEntry) (prevKey : List Nat) (plistLen : Nat)
      (outputs : List (List MapEntry)) (addUids : List (List Nat × Nat)),
      heapProp ph →
      (∀ x ∈ ph, nodeSorted x) →
      (∀ e ∈ sysEntries ph, keyLe prevKey e.key) →
      List.Chain' entryLe (outputs.flatten ++ batch) →
      (∀ e, (outputs.flatten ++ batch).getLast? = some e → e.key = prevKey) →
      plistLen = countKey prevKey (outputs.flatten ++ batch) →
      List.Chain' (fun p q => keyLt p.1 q.1) addUids →
      (∀ p ∈ addUids, keyLt p.1 prevKey) →
      (∀ p ∈ addUids, p.2 = countKey p.1 (outputs.flatten ++ batch)) →
      (∀ e ∈ outputs.flatten ++ batch, e.key = prevKey ∨ ∃ c, (e.key, c) ∈ addUids) →
      List.Pairwise sepRel outputs →
      (∀ b ∈ outputs, sepRel b batch) →
      (outputs ≠ [] → batch ≠ []) →
      List.Chain' entryLe
        (shuffleLoop ph batch prevKey plistLen outputs addUids).1.flatten ∧
      List.Pairwise sepRel (shuffleLoop ph batch prevKey plistLen outputs addUids).1 ∧
      List.Chain' (fun p q => keyLt p.1 q.1)
        (shuffleLoop ph batch prevKey plistLen outputs addUids).2 ∧
      (∀ p ∈ (shuffleLoop ph batch prevKey plistLen outputs addUids).2,
        p.2 = countKey p.1 (shuffleLoop ph batch prevKey plistLen outputs addUids).1.flatten) ∧
      (∀ e ∈ (shuffleLoop ph batch prevKey plistLen outputs addUids).1.flatten,
        ∃ c, (e.key, c) ∈ (shuffleLoop ph batch prevKey plistLen outputs addUids).2) := by
  intro ph batch prevKey plistLen outputs addUids
  induction ph, batch, prevKey, plistLen, outputs, addUids using shuffleLoop.induct with
  | case1 batch prevKey plistLen outputs addUids =>
    intro hprop hns hpk hE hlast hcnt hainc halt hacnt hacover hsep1 hsep2 hob
    rw [shuffleLoop]
    have hfl := flatten_base outputs batch
    refine ⟨?_, ?_, ?_, ?_, ?_⟩
    · show List.Chain' entryLe
        (if 0 < batch.length then outputs ++ [batch] else outputs).flatten
      rw [hfl]
      exact hE
    · show List.Pairwise sepRel (if 0 < batch.length then outputs ++ [batch] else outputs)
      by_cases hb : 0 < batch.length
      · rw [if_pos hb, List.pairwise_append]
        refine ⟨hsep1, List.pairwise_singleton _ _, ?_⟩
        intro a ha b hb2
        rcases List.mem_singleton.mp hb2 with rfl
        exact hsep2 a ha
      · rw [if_neg hb]
        exact hsep1
    · show List.Chain' (fun p q => keyLt p.1 q.1)
        (if 0 < plistLen then addUids ++ [(prevKey, plistLen)] else addUids)
      by_cases hp0 : 0 < plistLen
      · rw [if_pos hp0, List.chain'_append]
        refine ⟨hainc, List.chain'_singleton _, ?_⟩
        intro p hp q hq
        have hq' : q = (prevKey, plistLen) := by
          have := Option.mem_def.mp hq
          simpa using this.symm
        rw [hq']
        exact halt p (List.mem_of_mem_getLast? hp)
      · rw [if_neg hp0]
        exact hainc
    · show ∀ p ∈ (if 0 < plistLen then addUids ++ [(prevKey, plistLen)] else addUids),
        p.2 = countKey p.1
          (if 0 < batch.length then outputs ++ [batch] else outputs).flatten
      intro p hp
      rw [hfl]
      by_cases hp0 : 0 < plistLen
      · rw [if_pos hp0] at hp
        rcases List.mem_append.mp hp with hpo | hpn
        · exact hacnt p hpo
        · have hp' : p = (prevKey, plistLen) := by simpa using hpn
          rw [hp']
          exact hcnt
      · rw [if_neg hp0] at hp
        exact hacnt p hp
    · show ∀ e ∈ (if 0 < batch.length then outputs ++ [batch] else outputs).flatten,
        ∃ c, (e.key, c) ∈
          (if 0 < plistLen then addUids ++ [(prevKey, plistLen)] else addUids)
      intro e he
      rw [hfl] at he
      rcases hacover e he with hkeq | ⟨c, hc⟩
      · have hp0 : 0 < plistLen := by
          have := countKey_pos he hkeq
          omega
        refine ⟨plistLen, ?_⟩
        rw [if_pos hp0, hkeq]
        exact List.mem_append_right _ (List.mem_singleton.mpr rfl)
      · refine ⟨c, ?_⟩
        by_cases hp0 : 0 < plistLen
        · rw [if_pos hp0]
          exact List.mem_append_left _ hc
        · rw [if_neg hp0]
          exact hc
  | case2 me rest batch prevKey plistLen outputs addUids addUids' plistLen' outputs' batch' ih =>
    intro hprop hns hpk hE hlast hcnt hainc halt hacnt hacover hsep1 hsep2 hob
    have hstep := step_pop_facts hprop hns
    have hmepk : keyLe prevKey me.key := by
      apply hpk
      rw [hstep.1]
      exact Multiset.mem_cons_self _ _
    have hinv := @inv_step me batch prevKey plistLen outputs addUids
      addUids' plistLen' outputs' batch' rfl rfl rfl rfl hmepk hE hlast hcnt
      hainc halt hacnt hacover hsep1 hsep2 hob
    rw [shuffleLoop]
    exact ih hstep.2.1 hstep.2.2.1 hstep.2.2.2 hinv.1 hinv.2.1 hinv.2.2.1 hinv.2.2.2.1
      hinv.2.2.2.2.1 hinv.2.2.2.2.2.1 hinv.2.2.2.2.2.2.1 hinv.2.2.2.2.2.2.2.1
      hinv.2.2.2.2.2.2.2.2.1 hinv.2.2.2.2.2.2.2.2.2
  | case3 me e0 chRest rest batch prevKey plistLen outputs addUids addUids' plistLen' outputs' batch' ih =>
    intro hprop hns hpk hE hlast hcnt hainc halt hacnt hacover hsep1 hsep2 hob
    have hstep := step_fix_facts hprop hns
    have hmepk : keyLe prevKey me.key := by
      apply hpk
      rw [hstep.1]
      exact Multiset.mem_cons_self _ _
    have hinv := @inv_step me batch prevKey plistLen outputs addUids
      addUids' plistLen' outputs' batch' rfl rfl rfl rfl hmepk hE hlast hcnt
      hainc halt hacnt hacover hsep1 hsep2 hob
    rw [shuffleLoop]
    exact ih hstep.2.1 hstep.2.2.1 hstep.2.2.2 hinv.1 hinv.2.1 hinv.2.2.1 hinv.2.2.2.1
      hinv.2.2.2.2.1 hinv.2.2.2.2.2.1 hinv.2.2.2.2.2.2.1 hinv.2.2.2.2.2.2.2.1
      hinv.2.2.2.2.2.2.2.2.1 hinv.2.2.2.2.2.2.2.2.2

end Shuffle

namespace Shuffle

/-! ## Initialization: the heap built from the first record of every stream -/

theorem heapProp_nil : heapProp ([] : List HeapNode) := by
  intro p c hc hrel
  simp at hc

theorem mem_heapPush {x y : HeapNode} {h : List HeapNode} :
    x ∈ heapPush h y ↔ x = y ∨ x ∈ h := by
  have hperm : (heapPush h y).Perm (y :: h) := by
    rw [← Multiset.coe_eq_coe]
    rw [coe_heapPush]
    rfl
  rw [List.Perm.mem_iff hperm]
  simp

theorem initHeap_facts : ∀ (chs : List (List MapEntry)) (acc : List HeapNode),
    heapProp acc → (∀ x ∈ acc, nodeSorted x) →
    (∀ ch ∈ chs, ch ≠ [] ∧ List.Chain' entryLe ch) →
    heapProp (chs.foldl (fun ph ch => heapPush ph ⟨ch.headD default, ch.tail⟩) acc) ∧
    (∀ x ∈ chs.foldl (fun ph ch => heapPush ph ⟨ch.headD default, ch.tail⟩) acc,
      nodeSorted x) ∧
    sysEntries (chs.foldl (fun ph ch => heapPush ph ⟨ch.headD default, ch.tail⟩) acc)
      = sysEntries acc + (↑chs.flatten : Multiset MapEntry) := by
  intro chs
  induction chs with
  | nil =>
    intro acc hacc hsort hch
    refine ⟨hacc, hsort, ?_⟩
    simp
  | cons ch chs' ih =>
    intro acc hacc hsort hch
    have hch0 := hch ch (List.mem_cons_self _ _)
    obtain ⟨c0, cs, rfl⟩ : ∃ c0 cs, ch = c0 :: cs := by
      cases ch with
      | nil => exact absurd rfl hch0.1
      | cons c0 cs => exact ⟨c0, cs, rfl⟩
    have hnode : nodeSorted (⟨(c0 :: cs).headD default, (c0 :: cs).tail⟩ : HeapNode) := by
      unfold nodeSorted
      exact hch0.2
    have hacc' : heapProp (heapPush acc ⟨(c0 :: cs).headD default, (c0 :: cs).tail⟩) :=
      heapProp_heapPush _ hacc
    have hsort' : ∀ x ∈ heapPush acc ⟨(c0 :: cs).headD default, (c0 :: cs).tail⟩,
        nodeSorted x := by
      intro x hx
      rcases mem_heapPush.mp hx with rfl | hxa
      · exact hnode
      · exact hsort x hxa
    have hch' : ∀ c ∈ chs', c ≠ [] ∧ List.Chain' entryLe c := fun c hc =>
      hch c (List.mem_cons_of_mem _ hc)
    have hres := ih (heapPush acc ⟨(c0 :: cs).headD default, (c0 :: cs).tail⟩)
      hacc' hsort' hch'
    refine ⟨hres.1, hres.2.1, ?_⟩
    rw [List.foldl_cons] at *
    rw [hres.2.2]
    have hsysp : sysEntries (heapPush acc ⟨(c0 :: cs).headD default, (c0 :: cs).tail⟩)
        = sysEntries acc + (↑(c0 :: cs) : Multiset MapEntry) := by
      have hc1 : (↑(heapPush acc ⟨(c0 :: cs).headD default, (c0 :: cs).tail⟩)
          : Multiset HeapNode)
          = (↑((⟨(c0 :: cs).headD default, (c0 :: cs).tail⟩ : HeapNode) :: acc)
          : Multiset HeapNode) := by
        rw [coe_heapPush]
        rfl
      rw [sysEntries_congr hc1]
      show (((c0 :: cs).headD default) ::ₘ (↑(c0 :: cs).tail : Multiset MapEntry))
          + sysEntries acc = _
      rw [add_comm]
      congr 1
    rw [hsysp, add_assoc, List.flatten_cons, ← Multiset.coe_add]

end Shuffle

namespace Shuffle

/-- countKey is invariant under permutation of the record list. -/
theorem countKey_perm {k : List Nat} {l1 l2 : List MapEntry}
    (hp : (↑l1 : Multiset MapEntry) = (↑l2 : Multiset MapEntry)) :
    countKey k l1 = countKey k l2 := by
  unfold countKey
  rw [← List.countP_eq_length_filter, ← List.countP_eq_length_filter]
  exact List.Perm.countP_eq _ (Multiset.coe_eq_coe.mp hp)

/-- In a list of (key, count) pairs with strictly increasing keys, filtering on a
key that occurs yields exactly its one entry. -/
theorem filter_eq_of_chain : ∀ {l : List (List Nat × Nat)} {k : List Nat} {c : Nat},
    List.Chain' (fun p q => keyLt p.1 q.1) l → (k, c) ∈ l →
    l.filter (fun p => decide (p.1 = k)) = [(k, c)] := by
  intro l
  induction l with
  | nil => simp
  | cons x xs ih =>
    intro k c hc hm
    haveI : IsTrans (List Nat × Nat) (fun p q => keyLt p.1 q.1) :=
      ⟨fun _ _ _ h1 h2 => keyLt_trans h1 h2⟩
    have hpw := (List.chain'_iff_pairwise
      (R := fun (p q : List Nat × Nat) => keyLt p.1 q.1)).mp hc
    rcases List.mem_cons.mp hm with rfl | hmx
    · rw [List.filter_cons_of_pos (by simp)]
      have hxs0 : xs.filter (fun p => decide (p.1 = k)) = [] := by
        rw [List.filter_eq_nil_iff]
        intro p hp
        have hgt : keyLt k p.1 := List.rel_of_pairwise_cons hpw hp
        simp only [decide_eq_true_eq]
        intro he
        exact keyLt_ne hgt he.symm
      rw [hxs0]
    · have hxk : keyLt x.1 k := List.rel_of_pairwise_cons hpw hmx
      rw [List.filter_cons_of_neg ?_]
      · exact ih hc.tail hmx
      · simp only [decide_eq_true_eq]
        exact keyLt_ne hxk

/-- Combined behaviour of one successful (non-panicking) shufflePostings run
over individually sorted, non-empty input streams: globally sorted output,
record preservation, strict batch separation, and exact once-per-key-group
count reporting in ascending key order. -/
theorem shufflePostings_facts (chs : List (List MapEntry))
    (hs : ∀ ch ∈ chs, List.Chain' entryLe ch) (hne : ∀ ch ∈ chs, ch ≠ []) :
    List.Chain' entryLe (shufflePostings chs).outputs.flatten ∧
    (↑(shufflePostings chs).outputs.flatten : Multiset MapEntry)
      = (↑chs.flatten : Multiset MapEntry) ∧
    List.Pairwise sepRel (shufflePostings chs).outputs ∧
    List.Chain' (fun p q => keyLt p.1 q.1) (shufflePostings chs).addUids ∧
    (∀ p ∈ (shufflePostings chs).addUids,
      p.2 = countKey p.1 (shufflePostings chs).outputs.flatten) ∧
    (∀ e ∈ (shufflePostings chs).outputs.flatten,
      ∃ c, (e.key, c) ∈ (shufflePostings chs).addUids) := by
  have hemp : ¬ (chs.any List.isEmpty = true) := by
    rw [List.any_eq_true]
    rintro ⟨ch, hch, habs⟩
    exact hne ch hch (List.isEmpty_iff.mp habs)
  have hinit := initHeap_facts chs [] heapProp_nil (by simp)
    (fun ch hch => ⟨hne ch hch, hs ch hch⟩)
  have hsys : sysEntries
      (chs.foldl (fun ph ch => heapPush ph ⟨ch.headD default, ch.tail⟩) [])
      = (↑chs.flatten : Multiset MapEntry) := by
    rw [hinit.2.2]
    show (0 : Multiset MapEntry) + _ = _
    rw [zero_add]
  have horder := shuffleLoop_order
    (chs.foldl (fun ph ch => heapPush ph ⟨ch.headD default, ch.tail⟩) [])
    [] [] 0 [] []
    hinit.1 hinit.2.1
    (fun e _ => nil_keyLe _)
    (by simp)
    (by intro e he; simp at he)
    rfl
    (by simp)
    (by intro p hp; simp at hp)
    (by intro p hp; simp at hp)
    (by intro e he; simp at he)
    (by simp)
    (by intro b hb; simp at hb)
    (by intro h; exact absurd rfl h)
  have hms := shuffleLoop_entries
    (chs.foldl (fun ph ch => heapPush ph ⟨ch.headD default, ch.tail⟩) [])
    [] [] 0 [] []
  have hout : (shufflePostings chs).outputs
      = (shuffleLoop (chs.foldl (fun ph ch => heapPush ph ⟨ch.headD default, ch.tail⟩) [])
        [] [] 0 [] []).1 := by
    unfold shufflePostings
    rw [if_neg hemp]
  have huid : (shufflePostings chs).addUids
      = (shuffleLoop (chs.foldl (fun ph ch => heapPush ph ⟨ch.headD default, ch.tail⟩) [])
        [] [] 0 [] []).2 := by
    unfold shufflePostings
    rw [if_neg hemp]
  rw [hout, huid]
  refine ⟨horder.1, ?_, horder.2.1, horder.2.2.1, horder.2.2.2.1, horder.2.2.2.2⟩
  rw [hms, hsys]
  show (↑([] : List MapEntry) : Multiset MapEntry) + _ = _
  rw [show (↑([] : List MapEntry) : Multiset MapEntry) = 0 from rfl, zero_add]

end Shuffle

namespace Shuffle

/-- Helper for concrete witnesses: a two-element chain. -/
theorem chain'_pair {a b : MapEntry} (h : entryLe a b) : List.Chain' entryLe [a, b] :=
  List.chain'_cons.mpr ⟨h, List.chain'_singleton b⟩

/-- The three example streams (keys [1],[3] / [2],[3] / [1]) are each sorted. -/
theorem example_streams_sorted :
    ∀ ch ∈ ([[⟨[1], [10]⟩, ⟨[3], [11]⟩], [⟨[2], [12]⟩, ⟨[3], [13]⟩],
      [⟨[1], [14]⟩]] : List (List MapEntry)), List.Chain' entryLe ch := by
  intro ch hch
  simp only [List.mem_cons, List.not_mem_nil, or_false] at hch
  rcases hch with rfl | rfl | rfl
  · exact chain'_pair (by decide)
  · exact chain'_pair (by decide)
  · exact List.chain'_singleton _

/-- C1: For every set of input streams, each individually sorted non-decreasing
by lexicographic byte-key, the sequence of records obtained by concatenating,
in emission order, all batches that shufflePostings sends to the output queue
for one reduce shard is non-decreasing by key under bytes.Compare.  (A run in
which some stream is empty panics at initialization, before sending any batch,
so its emitted concatenation is empty and trivially sorted.) -/
theorem C1_merge_output_globally_sorted (chs : List (List MapEntry))
    (hs : ∀ ch ∈ chs, List.Chain' entryLe ch) :
    List.Chain' entryLe (shufflePostings chs).outputs.flatten := by
  by_cases hemp : chs.any List.isEmpty = true
  · unfold shufflePostings
    rw [if_pos hemp]
    exact List.chain'_nil
  · have hne : ∀ ch ∈ chs, ch ≠ [] := by
      intro ch hch hnil
      apply hemp
      rw [List.any_eq_true]
      refine ⟨ch, hch, ?_⟩
      rw [hnil]
      rfl
    exact (shufflePostings_facts chs hs hne).1

theorem C1_witness :
    List.Chain' entryLe (shufflePostings
      [[⟨[1], [10]⟩, ⟨[3], [11]⟩], [⟨[2], [12]⟩, ⟨[3], [13]⟩],
        [⟨[1], [14]⟩]]).outputs.flatten :=
  C1_merge_output_globally_sorted _ example_streams_sorted

/-- C2 counterexample: for the key-sorted input streams [[record with key 0], []]
(the second stream empty), the record of the first stream is placed in no
emitted batch at all — shufflePostings dies of the nil-record panic before
emitting anything — refuting the claim that every merged record lands in
exactly one batch for arbitrary sorted inputs. -/
theorem C2_counterexample :
    ([[(⟨[0], []⟩ : MapEntry)], []] : List (List MapEntry)).flatten
        = [(⟨[0], []⟩ : MapEntry)] ∧
    (shufflePostings [[⟨[0], []⟩], []]).outputs = [] ∧
    (shufflePostings [[⟨[0], []⟩], []]).panicked = true :=
  ⟨rfl, rfl, rfl⟩

/-- C2 (amended): for every set of individually key-sorted input streams in
which every stream is non-empty, the records across all emitted batches are
exactly the input records — each record is placed in exactly one batch
position — and distinct batches are strictly separated by key, so no
key-group is split across two batches. -/
theorem C2_no_keygroup_split (chs : List (List MapEntry))
    (hs : ∀ ch ∈ chs, List.Chain' entryLe ch) (hne : ∀ ch ∈ chs, ch ≠ []) :
    (↑(shufflePostings chs).outputs.flatten : Multiset MapEntry)
      = (↑chs.flatten : Multiset MapEntry) ∧
    List.Pairwise sepRel (shufflePostings chs).outputs := by
  have h := shufflePostings_facts chs hs hne
  exact ⟨h.2.1, h.2.2.1⟩

theorem C2_witness :
    (↑(shufflePostings [[⟨[1], [10]⟩, ⟨[3], [11]⟩], [⟨[2], [12]⟩, ⟨[3], [13]⟩],
        [⟨[1], [14]⟩]]).outputs.flatten : Multiset MapEntry)
      = (↑([[⟨[1], [10]⟩, ⟨[3], [11]⟩], [⟨[2], [12]⟩, ⟨[3], [13]⟩],
        [⟨[1], [14]⟩]] : List (List MapEntry)).flatten : Multiset MapEntry) ∧
    List.Pairwise sepRel (shufflePostings [[⟨[1], [10]⟩, ⟨[3], [11]⟩],
      [⟨[2], [12]⟩, ⟨[3], [13]⟩], [⟨[1], [14]⟩]]).outputs :=
  C2_no_keygroup_split _ example_streams_sorted (by decide)

/-- C3 counterexample: for the key-sorted input streams [[record with key 5], []]
(the second stream empty), key [5] is present in the inputs but the merge
reports nothing to the count indexer — the run panics on the nil record from
the empty stream — refuting the exactly-once reporting claim for arbitrary
sorted inputs. -/
theorem C3_counterexample :
    0 < countKey [5] ([[(⟨[5], []⟩ : MapEntry)], []] : List (List MapEntry)).flatten ∧
    (shufflePostings [[⟨[5], []⟩], []]).addUids = [] := by
  constructor
  · decide
  · rfl

/-- C3 (amended): for every set of individually key-sorted, non-empty input
streams and every key present in them, ci.addUid receives that key exactly
once, with a count equal to the exact number of records carrying that key
across all input streams combined; and the reported keys are strictly
increasing in call order, so each key-group is reported only once its run is
complete (a strictly greater key having been dequeued, or all streams being
exhausted). -/
theorem C3_count_reports (chs : List (List MapEntry))
    (hs : ∀ ch ∈ chs, List.Chain' entryLe ch) (hne : ∀ ch ∈ chs, ch ≠ []) :
    List.Chain' (fun p q => keyLt p.1 q.1) (shufflePostings chs).addUids ∧
    ∀ k, 0 < countKey k chs.flatten →
      (shufflePostings chs).addUids.filter (fun p => decide (p.1 = k))
        = [(k, countKey k chs.flatten)] := by
  have h := shufflePostings_facts chs hs hne
  refine ⟨h.2.2.2.1, ?_⟩
  intro k hk
  have hperm : countKey k (shufflePostings chs).outputs.flatten
      = countKey k chs.flatten := countKey_perm h.2.1
  have hk' : 0 < countKey k (shufflePostings chs).outputs.flatten := by
    rw [hperm]
    exact hk
  obtain ⟨e, he, hek⟩ : ∃ e ∈ (shufflePostings chs).outputs.flatten, e.key = k := by
    unfold countKey at hk'
    have hfne : (shufflePostings chs).outputs.flatten.filter
        (fun e => decide (e.key = k)) ≠ [] := by
      intro hnil
      rw [hnil] at hk'
      simp at hk'
    rcases List.exists_mem_of_ne_nil _ hfne with ⟨e, he⟩
    have hm := List.mem_filter.mp he
    exact ⟨e, hm.1, by simpa using hm.2⟩
  obtain ⟨c, hc⟩ := h.2.2.2.2.2 e he
  have hcval : c = countKey k chs.flatten := by
    have h2 := h.2.2.2.2.1 (e.key, c) hc
    simp only at h2
    rw [hek] at h2
    rw [h2, hperm]
  rw [hek] at hc
  rw [← hcval]
  exact filter_eq_of_chain h.2.2.2.1 hc

theorem C3_witness :
    (shufflePostings [[⟨[1], [10]⟩, ⟨[3], [11]⟩], [⟨[2], [12]⟩, ⟨[3], [13]⟩],
      [⟨[1], [14]⟩]]).addUids.filter (fun p => decide (p.1 = [1])) = [([1], 2)] :=
  (C3_count_reports _ example_streams_sorted (by decide)).2 [1] (by decide)

/-- C10: for every set of individually key-sorted input streams, every batch
shufflePostings emits during the merge loop — every batch except possibly the
final one — holds at least batchSize (10000) records, and every emitted batch,
the final one included, is non-empty. -/
theorem C10_batch_size_invariants (chs : List (List MapEntry))
    (hs : ∀ ch ∈ chs, List.Chain' entryLe ch) :
    ((shufflePostings chs).outputs.dropLast.all
      (fun b => decide (batchSize ≤ b.length))) = true ∧
    ((shufflePostings chs).outputs.all (fun b => decide (b ≠ []))) = true := by
  by_cases hemp : chs.any List.isEmpty = true
  · unfold shufflePostings
    rw [if_pos hemp]
    exact ⟨rfl, rfl⟩
  · have hout : (shufflePostings chs).outputs
        = (shuffleLoop (chs.foldl (fun ph ch => heapPush ph ⟨ch.headD default, ch.tail⟩) [])
          [] [] 0 [] []).1 := by
      unfold shufflePostings
      rw [if_neg hemp]
    have hA := shuffleLoop_batchSizes
      (chs.foldl (fun ph ch => heapPush ph ⟨ch.headD default, ch.tail⟩) [])
      [] [] 0 [] [] (by intro b hb; simp at hb)
    rw [hout]
    constructor
    · rw [List.all_eq_true]
      intro b hb
      simpa using hA.1 b hb
    · rw [List.all_eq_true]
      intro b hb
      have hpos := hA.2 b hb
      simp only [decide_eq_true_eq]
      intro hnil
      rw [hnil] at hpos
      simp at hpos

theorem C10_witness :
    ((shufflePostings [[⟨[1], [10]⟩, ⟨[3], [11]⟩], [⟨[2], [12]⟩, ⟨[3], [13]⟩],
      [⟨[1], [14]⟩]]).outputs.dropLast.all
      (fun b => decide (batchSize ≤ b.length))) = true ∧
    ((shufflePostings [[⟨[1], [10]⟩, ⟨[3], [11]⟩], [⟨[2], [12]⟩, ⟨[3], [13]⟩],
      [⟨[1], [14]⟩]]).outputs.all (fun b => decide (b ≠ []))) = true :=
  C10_batch_size_invariants _ example_streams_sorted

end Shuffle

namespace Shuffle

/-! ## The stream decoder: readMapOutput

readMapOutput (shuffle.go lines 71-100) reads one intermediate file: in a loop
it peeks MaxVarintLen64 = 10 bytes, stops on io.EOF, decodes a uvarint length
prefix (fatal if invalid), discards the prefix, reads exactly that many bytes
(fatal on short read), unmarshals them into a record, and sends it on; at the
end it closes the channel.

bufio.Reader.Peek(10) reports io.EOF whenever FEWER than 10 bytes remain, even
when more than zero remain, and the code breaks out of the loop on io.EOF; so
decoding stops as soon as fewer than 10 bytes are left.

The file is a byte list; the decoder result is the list of record payloads
delivered in order (proto.Unmarshal is an external collaborator, so a record is
identified with its serialized bytes), or none when the process dies (bad
varint, short read). -/

/-- binary.Uvarint's loop from Go's encoding/binary, over the peeked buffer:
index i, accumulator x, shift s.  uint64 arithmetic wraps modulo 2^64. -/
def uvarintLoop : List Nat → Nat → Nat → Nat → Nat × Int
  | [], _, _, _ => (0, 0)
  | b :: rest, i, x, s =>
    if b < 128 then
      if i > 9 ∨ (i = 9 ∧ b > 1) then (0, -(Int.ofNat i + 1))
      else ((x ||| (b <<< s)) % 2^64, Int.ofNat (i+1))
    else uvarintLoop rest (i+1) ((x ||| ((b % 128) <<< s)) % 2^64) (s+7)

/-- binary.Uvarint buf: decoded value and number of bytes read (0 = buffer too
small, negative = 64-bit overflow). -/
def uvarint (buf : List Nat) : Nat × Int := uvarintLoop buf 0 0 0

/-- The decode loop of readMapOutput.  Stops (cleanly, from the code's point of
view) when fewer than MaxVarintLen64 = 10 bytes remain; returns none when the
process would die via x.Check / log.Fatal. -/
def readLoop (input : List Nat) : Option (List (List Nat)) :=
  if _h1 : input.length < 10 then some []
  else
    if _h2 : (uvarint (input.take 10)).2 ≤ 0 then none
    else
      if (input.drop (uvarint (input.take 10)).2.toNat).length
          < (uvarint (input.take 10)).1 then none
      else
        match readLoop ((input.drop (uvarint (input.take 10)).2.toNat).drop
            (uvarint (input.take 10)).1) with
        | none => none
        | some tl =>
          some ((input.drop (uvarint (input.take 10)).2.toNat).take
            (uvarint (input.take 10)).1 :: tl)
termination_by input.length
decreasing_by
  simp only [List.length_drop]
  omega

/-- readMapOutput: the sequence of records delivered to the output channel
before it is closed (none = fatal error). -/
def readMapOutput (file : List Nat) : Option (List (List Nat)) := readLoop file

/-- Modelled from the spec: binary.PutUvarint, the variable-length unsigned
integer encoding (ULEB128-style) with which the map phase (outside this core,
spec sections 3 and 4.2) writes each record's length prefix. -/
def encodeUvarint (n : Nat) : List Nat :=
  if n < 128 then [n] else (n % 128 + 128) :: encodeUvarint (n / 128)
termination_by n
decreasing_by
  exact Nat.div_lt_self (by omega) (by omega)

/-- Modelled from the spec: an intermediate file (spec section 3) is the
concatenation of uvarint length-prefixed serialized records. -/
def encodeFile (recs : List (List Nat)) : List Nat :=
  (recs.map (fun r => encodeUvarint r.length ++ r)).flatten

theorem or_shiftLeft_eq_add {x y s : Nat} (hx : x < 2^s) :
    x ||| (y <<< s) = x + y * 2^s := by
  rw [Nat.shiftLeft_eq, Nat.lor_comm, mul_comm]
  rw [← Nat.mul_add_lt_is_or hx]
  omega

theorem encodeUvarint_length_le : ∀ (k : Nat), ∀ n < 2^(7*k), 1 ≤ k →
    (encodeUvarint n).length ≤ k := by
  intro k
  induction k with
  | zero => omega
  | succ k ih =>
    intro n hn _
    rw [encodeUvarint]
    by_cases h : n < 128
    · rw [if_pos h]
      simp only [List.length_singleton]
      omega
    · rw [if_neg h]
      have hk1 : 1 ≤ k := by
        rcases Nat.eq_zero_or_pos k with rfl | hp
        · exfalso
          have h128 : (2:Nat)^(7*(0+1)) = 128 := by norm_num
          rw [h128] at hn
          omega
        · exact hp
      have hdiv : n / 128 < 2^(7*k) := by
        have h2 : n < 2^(7*k) * 128 := by
          have : 2^(7*(k+1)) = 2^(7*k) * 128 := by
            rw [show 7*(k+1) = 7*k + 7 from by omega, pow_add]
            norm_num
          omega
        rw [Nat.div_lt_iff_lt_mul (show (0:Nat) < 128 by omega)]
        exact h2
      have := ih (n / 128) hdiv hk1
      simp only [List.length_cons]
      omega

end Shuffle

namespace Shuffle

theorem uvarintLoop_encode : ∀ (sz : Nat), ∀ (i x s : Nat) (tail : List Nat),
    s = 7*i → x < 2^s → sz * 2^s < 2^64 → (i = 0 ∨ 1 ≤ sz) →
    uvarintLoop (encodeUvarint sz ++ tail) i x s
      = (x + sz * 2^s, Int.ofNat (i + (encodeUvarint sz).length)) := by
  intro sz
  induction sz using Nat.strong_induction_on with
  | _ sz ih =>
    intro i x s tail hs hx hsz hi
    rw [encodeUvarint]
    by_cases h : sz < 128
    · rw [if_pos h, List.singleton_append]
      simp only [uvarintLoop]
      rw [if_pos h]
      have hov : ¬(i > 9 ∨ (i = 9 ∧ sz > 1)) := by
        rintro (hgt | ⟨h9, hsgt⟩)
        · rcases hi with rfl | hsz1
          · omega
          · have h1 : (2:Nat)^70 ≤ 2^s := Nat.pow_le_pow_right (by omega) (by omega)
            have h2 : (2:Nat)^64 < 2^70 := by norm_num
            have h3 : 2^s ≤ sz * 2^s := Nat.le_mul_of_pos_left _ (by omega)
            omega
        · have h1 : 2 * 2^s ≤ sz * 2^s := Nat.mul_le_mul_right _ (by omega)
          have h2 : 2 * 2^s = 2^64 := by
            rw [hs, h9]
            norm_num
          omega
      rw [if_neg hov]
      have hile : i ≤ 9 := by omega
      have hsle : s ≤ 63 := by omega
      have hlt64 : x + sz * 2^s < 2^64 := by
        have h1 : x + sz * 2^s < (sz + 1) * 2^s := by
          have he : (sz+1) * 2^s = sz * 2^s + 2^s := by ring
          omega
        have hszlt : sz < 2^(64-s) := by
          by_contra hge
          push_neg at hge
          have h2 := Nat.mul_le_mul_right (2^s) hge
          have h3 : (2:Nat)^(64-s) * 2^s = 2^64 := by
            rw [← pow_add]
            congr 1
            omega
          omega
        have h2 : (sz+1) * 2^s ≤ 2^(64-s) * 2^s := Nat.mul_le_mul_right _ (by omega)
        have h3 : (2:Nat)^(64-s) * 2^s = 2^64 := by
          rw [← pow_add]
          congr 1
          omega
        omega
      rw [or_shiftLeft_eq_add hx, Nat.mod_eq_of_lt hlt64]
      simp only [List.length_singleton]
    · rw [if_neg h, List.cons_append]
      simp only [uvarintLoop]
      rw [if_neg (show ¬ (sz % 128 + 128 < 128) from by omega)]
      have hmod : (sz % 128 + 128) % 128 = sz % 128 := by omega
      rw [hmod]
      have hpow7 : (2:Nat)^(s+7) = 128 * 2^s := by
        rw [pow_add]
        ring
      have hslt : (2:Nat)^(s+7) ≤ sz * 2^s := by
        rw [hpow7]
        exact Nat.mul_le_mul_right _ (by omega)
      have hx' : x + (sz % 128) * 2^s < 2^(s+7) := by
        have h1 : (sz % 128) * 2^s ≤ 127 * 2^s := Nat.mul_le_mul_right _ (by omega)
        have h2 : x + 127 * 2^s < 128 * 2^s := by
          have : (128:Nat) * 2^s = 127 * 2^s + 2^s := by ring
          omega
        rw [hpow7]
        omega
      have hlt64 : x + (sz % 128) * 2^s < 2^64 := by
        have : (2:Nat)^(s+7) ≤ 2^64 := by
          have h1 : (2:Nat)^(s+7) < 2^64 := by omega
          omega
        omega
      rw [or_shiftLeft_eq_add hx, Nat.mod_eq_of_lt hlt64]
      have hdiv : sz / 128 < sz := Nat.div_lt_self (by omega) (by omega)
      have hrec := ih (sz / 128) hdiv (i+1) (x + (sz % 128) * 2^s) (s+7) tail
        (by omega) hx'
        (by
          have h1 : sz / 128 * 2^(s+7) ≤ sz * 2^s := by
            rw [hpow7, ← mul_assoc]
            exact Nat.mul_le_mul_right _ (by
              have := Nat.div_mul_le_self sz 128
              omega)
          omega)
        (Or.inr (by
          rw [Nat.le_div_iff_mul_le (by omega)]
          omega))
      rw [hrec, Prod.mk.injEq]
      refine ⟨?_, ?_⟩
      · calc x + (sz % 128) * 2^s + sz / 128 * 2^(s+7)
            = x + (sz % 128 + 128 * (sz / 128)) * 2^s := by
              rw [hpow7]
              ring
          _ = x + sz * 2^s := by rw [Nat.mod_add_div]
      · simp only [List.length_cons]
        congr 1
        omega

end Shuffle

namespace Shuffle

theorem uvarint_encode {sz : Nat} (hsz : sz < 2^64) (tail : List Nat) :
    uvarint (encodeUvarint sz ++ tail)
      = (sz, Int.ofNat (encodeUvarint sz).length) := by
  have h := uvarintLoop_encode sz 0 0 0 tail rfl (by norm_num)
    (by simpa using hsz) (Or.inl rfl)
  unfold uvarint
  simpa using h

theorem encodeUvarint_length_pos (n : Nat) : 1 ≤ (encodeUvarint n).length := by
  rw [encodeUvarint]
  by_cases h : n < 128
  · rw [if_pos h]
    simp
  · rw [if_neg h]
    simp

theorem encodeFile_cons (r : List Nat) (rs : List (List Nat)) :
    encodeFile (r :: rs) = (encodeUvarint r.length ++ r) ++ encodeFile rs := by
  simp [encodeFile]

theorem encodeFile_length_ge_last : ∀ (recs : List (List Nat)) (r : List Nat),
    recs.getLast? = some r →
    (encodeUvarint r.length).length + r.length ≤ (encodeFile recs).length := by
  intro recs
  induction recs with
  | nil =>
    intro r hr
    simp at hr
  | cons r0 rs ih =>
    intro r hr
    cases rs with
    | nil =>
      have hr0 : r0 = r := by simpa using hr
      subst hr0
      rw [encodeFile_cons]
      simp [encodeFile]
    | cons r1 rs' =>
      rw [List.getLast?_cons_cons] at hr
      have := ih r hr
      rw [encodeFile_cons]
      simp only [List.length_append]
      omega

theorem readLoop_encodeFile : ∀ (recs : List (List Nat)),
    (∀ r ∈ recs, r.length < 2^64) →
    (∀ r, recs.getLast? = some r → 10 ≤ (encodeUvarint r.length).length + r.length) →
    readLoop (encodeFile recs) = some recs := by
  intro recs
  induction recs with
  | nil =>
    intro _ _
    rw [readLoop, dif_pos (by simp [encodeFile])]
  | cons r rs ih =>
    intro hw hl
    have hwr : r.length < 2^64 := hw r (List.mem_cons_self _ _)
    have hencle : (encodeUvarint r.length).length ≤ 10 := by
      apply encodeUvarint_length_le 10 _ (by
        calc r.length < 2^64 := hwr
          _ < 2^(7*10) := by norm_num) (by omega)
    have hencpos := encodeUvarint_length_pos r.length
    -- at least 10 bytes remain at the start of this block
    have hgfile : 10 ≤ (encodeFile (r :: rs)).length := by
      cases hgl : (r :: rs).getLast? with
      | none => simp at hgl
      | some rl =>
        have h1 := hl rl hgl
        have h2 := encodeFile_length_ge_last (r :: rs) rl hgl
        omega
    have hfile : encodeFile (r :: rs)
        = encodeUvarint r.length ++ (r ++ encodeFile rs) := by
      rw [encodeFile_cons, List.append_assoc]
    rw [readLoop, dif_neg (by omega)]
    have htake : (encodeFile (r :: rs)).take 10
        = encodeUvarint r.length
          ++ (r ++ encodeFile rs).take (10 - (encodeUvarint r.length).length) := by
      rw [hfile, List.take_append_eq_append_take, List.take_of_length_le hencle]
    have huv : uvarint ((encodeFile (r :: rs)).take 10)
        = (r.length, Int.ofNat (encodeUvarint r.length).length) := by
      rw [htake]
      exact uvarint_encode hwr _
    rw [huv]
    dsimp only
    have hpos : (0:Int) < Int.ofNat (encodeUvarint r.length).length := by
      rw [show Int.ofNat (encodeUvarint r.length).length
          = ((encodeUvarint r.length).length : Int) from rfl]
      exact_mod_cast hencpos
    rw [dif_neg (by omega)]
    have hdrop : (encodeFile (r :: rs)).drop
        (Int.ofNat (encodeUvarint r.length).length).toNat = r ++ encodeFile rs := by
      rw [show (Int.ofNat (encodeUvarint r.length).length).toNat
          = (encodeUvarint r.length).length from rfl, hfile, List.drop_left]
    rw [hdrop]
    rw [if_neg (by
      simp only [List.length_append, not_lt]
      omega)]
    rw [List.drop_left, List.take_left]
    have hrec : readLoop (encodeFile rs) = some rs := by
      apply ih
      · intro r2 hr2
        exact hw r2 (List.mem_cons_of_mem _ hr2)
      · intro rl hrl
        apply hl
        cases rs with
        | nil => simp at hrl
        | cons r1 rs' =>
          rw [List.getLast?_cons_cons]
          exact hrl
    rw [hrec]

end Shuffle

namespace Shuffle

/-- C4 counterexample: the well-formed intermediate file encoding the single
record [42] — the two bytes [1, 42] — decodes to NO records: bufio's Peek(10)
reports io.EOF whenever fewer than MaxVarintLen64 = 10 bytes remain, and
readMapOutput breaks out of its loop there, silently dropping the trailing
record instead of delivering it. -/
theorem C4_counterexample :
    encodeFile [[42]] = [1, 42] ∧
    readMapOutput (encodeFile [[42]]) = some [] ∧
    some ([] : List (List Nat)) ≠ some [[42]] := by
  have h1 : encodeUvarint 1 = [1] := by
    rw [encodeUvarint]
    norm_num
  have henc : encodeFile [[42]] = [1, 42] := by
    unfold encodeFile
    simp [h1]
  refine ⟨henc, ?_, by simp⟩
  rw [henc]
  unfold readMapOutput
  rw [readLoop, dif_pos (by norm_num)]

/-- C4 (amended): readMapOutput delivers every record of a well-formed
intermediate file (a sequence of uvarint length-prefixed serialized records,
lengths below 2^64), in file order, and then terminates cleanly, PROVIDED the
final record's encoded block is at least MaxVarintLen64 = 10 bytes long.
Decoding stops as soon as fewer than 10 bytes remain — Peek(10) returns io.EOF
for any short peek — so trailing records whose blocks lie entirely within the
final 9 bytes are silently dropped (see the counterexample). -/
theorem C4_decoder_delivers (recs : List (List Nat))
    (hw : ∀ r ∈ recs, r.length < 2^64)
    (hl : ∀ r, recs.getLast? = some r →
      10 ≤ (encodeUvarint r.length).length + r.length) :
    readMapOutput (encodeFile recs) = some recs :=
  readLoop_encodeFile recs hw hl

theorem C4_witness :
    readMapOutput (encodeFile [[1,2,3], [0,0,0,0,0,0,0,0,0]])
      = some [[1,2,3], [0,0,0,0,0,0,0,0,0]] := by
  apply C4_decoder_delivers
  · intro r hr
    simp only [List.mem_cons, List.not_mem_nil, or_false] at hr
    rcases hr with rfl | rfl <;> norm_num
  · intro r hr
    have hr' : r = [0,0,0,0,0,0,0,0,0] := by
      have : ([[1,2,3], [0,0,0,0,0,0,0,0,0]] : List (List Nat)).getLast?
          = some [0,0,0,0,0,0,0,0,0] := rfl
      rw [this] at hr
      exact (Option.some_inj.mp hr).symm
    subst hr'
    rw [show ([0,0,0,0,0,0,0,0,0] : List Nat).length = 9 from rfl]
    rw [encodeUvarint]
    norm_num

/-- C5: an input file with zero records yields an immediately closed stream
delivering no records (first conjunct).  But a shufflePostings run over a
non-empty set of streams that are all empty does NOT complete without error:
already with a single empty stream, the nil record received from the closed
channel at initialization is dereferenced and the goroutine panics — after
emitting zero batches and zero count reports (second conjunct evaluates the
model at the failing input [[]]). -/
theorem C5_empty_boundary :
    readMapOutput [] = some [] ∧
    shufflePostings [[]] = ⟨[], [], true⟩ := by
  constructor
  · unfold readMapOutput
    rw [readLoop, dif_pos (by norm_num)]
  · rfl

end Shuffle

namespace Shuffle

/-- The cumulative size of one reduce shard: the sum of the sizes of the map
shards placed in it.  A map shard is modelled as a pair (identifier, size); a
reduce shard (bin) as the list of map shards relocated into it. -/
def binSize (bin : List (Nat × Nat)) : Nat := (bin.map Prod.snd).sum

/-- Modelled from the spec: sortBySize(reduceShards, true) at shuffle.go line
115 sorts the reduce-shard directories ascending by cumulative on-disk size,
so that reduceShards[0] is a smallest one; the body of sortBySize is outside
this file's source tree, and the spec fixes its meaning (greedy heuristic:
"put the largest map shard into the smallest reduce shard"). -/
def sortBySize (bins : List (List (Nat × Nat))) : List (List (Nat × Nat)) :=
  List.insertionSort (fun b1 b2 => binSize b1 ≤ binSize b2) bins

/-- Modelled from the spec: sortBySize(shards, false) at shuffle.go line 131
sorts the map shards descending by size ("Allow largest shards to be shuffled
first"), which is the order mergeMapShardsIntoReduceShards consumes them in. -/
def sortShardsBySizeDesc (shards : List (Nat × Nat)) : List (Nat × Nat) :=
  List.insertionSort (fun s1 s2 => Prod.snd s2 ≤ Prod.snd s1) shards

/-- One iteration of the relocation loop, shuffle.go lines 114-117: sort the
reduce shards by size (smallest first) and move the map shard into
reduceShards[0].  With zero reduce shards the Go code would panic indexing
reduceShards[0]; the model returns the empty bin list. -/
def placeShard (bins : List (List (Nat × Nat))) (s : Nat × Nat) :
    List (List (Nat × Nat)) :=
  match sortBySize bins with
  | [] => []
  | b :: rest => (s :: b) :: rest

/-- mergeMapShardsIntoReduceShards, shuffle.go lines 102-118: create
reduceShards empty bins (freshly made directories), then relocate every map
shard, largest first (the caller obtains mapShards from shardDirs, which
sorts descending), each into a currently smallest bin. -/
def mergeMapShardsIntoReduceShards (mapShards : List (Nat × Nat))
    (reduceShards : Nat) : List (List (Nat × Nat)) :=
  (sortShardsBySizeDesc mapShards).foldl placeShard
    (List.replicate reduceShards [])

lemma sortBySize_perm (bins : List (List (Nat × Nat))) :
    (sortBySize bins).Perm bins :=
  List.perm_insertionSort _ bins

lemma sortBySize_head_min (bins : List (List (Nat × Nat)))
    (b : List (Nat × Nat)) (rest : List (List (Nat × Nat)))
    (h : sortBySize bins = b :: rest) :
    ∀ b2 ∈ bins, binSize b ≤ binSize b2 := by
  haveI : IsTotal (List (Nat × Nat)) (fun b1 b2 => binSize b1 ≤ binSize b2) :=
    ⟨fun a b => Nat.le_total _ _⟩
  haveI : IsTrans (List (Nat × Nat)) (fun b1 b2 => binSize b1 ≤ binSize b2) :=
    ⟨fun a b c => Nat.le_trans⟩
  have hs : List.Sorted (fun b1 b2 => binSize b1 ≤ binSize b2) (sortBySize bins) :=
    List.sorted_insertionSort _ bins
  rw [h] at hs
  intro b2 hb2
  have hb2' : b2 ∈ b :: rest := by
    rw [← h]
    exact ((sortBySize_perm bins).mem_iff).mpr hb2
  rcases List.mem_cons.mp hb2' with rfl | hmem
  · exact Nat.le_refl _
  · exact List.rel_of_sorted_cons hs b2 hmem

lemma length_mul_le_sum_sizes (bins : List (List (Nat × Nat))) (m : Nat)
    (h : ∀ b ∈ bins, m ≤ binSize b) :
    bins.length * m ≤ (bins.map binSize).sum := by
  induction bins with
  | nil => simp
  | cons b bs ih =>
    have h1 := h b (List.mem_cons_self b bs)
    have h2 := ih fun x hx => h x (List.mem_cons_of_mem b hx)
    simp only [List.map_cons, List.sum_cons, List.length_cons, Nat.succ_mul]
    omega

lemma placeShard_facts (bins : List (List (Nat × Nat))) (s : Nat × Nat)
    (hne : bins ≠ []) :
    (placeShard bins s).length = bins.length ∧
    ((placeShard bins s).map binSize).sum = (bins.map binSize).sum + s.2 ∧
    (((placeShard bins s).flatten : List (Nat × Nat)) : Multiset (Nat × Nat))
      = s ::ₘ ↑bins.flatten ∧
    ∀ b ∈ placeShard bins s,
      (∃ b0 ∈ bins, b = s :: b0 ∧ ∀ b2 ∈ bins, binSize b0 ≤ binSize b2)
        ∨ b ∈ bins := by
  have hperm := sortBySize_perm bins
  cases hs : sortBySize bins with
  | nil =>
    exfalso
    apply hne
    rw [hs] at hperm
    exact hperm.symm.eq_nil
  | cons b0 rest =>
    rw [hs] at hperm
    have hmin : ∀ b2 ∈ bins, binSize b0 ≤ binSize b2 :=
      sortBySize_head_min bins b0 rest hs
    have hpl : placeShard bins s = (s :: b0) :: rest := by
      unfold placeShard
      rw [hs]
    refine ⟨?_, ?_, ?_, ?_⟩
    · rw [hpl]
      have := hperm.length_eq
      simpa using this
    · rw [hpl]
      have hsum : ((b0 :: rest).map binSize).sum = (bins.map binSize).sum :=
        (hperm.map binSize).sum_eq
      simp only [List.map_cons, List.sum_cons] at hsum ⊢
      have hb : binSize (s :: b0) = s.2 + binSize b0 := by
        simp [binSize]
      omega
    · rw [hpl]
      have hj : (((b0 :: rest).flatten : List (Nat × Nat)) : Multiset (Nat × Nat))
          = ↑bins.flatten :=
        Multiset.coe_eq_coe.mpr hperm.flatten
      rw [show ((s :: b0) :: rest).flatten = s :: (b0 :: rest).flatten from by simp]
      rw [← Multiset.cons_coe, hj]
    · rw [hpl]
      intro b hb
      rcases List.mem_cons.mp hb with rfl | hbr
      · left
        exact ⟨b0, hperm.mem_iff.mp (List.mem_cons_self b0 rest), rfl, hmin⟩
      · right
        exact hperm.mem_iff.mp (List.mem_cons_of_mem b0 hbr)

lemma placeFold_facts (T M : Nat) (shards : List (Nat × Nat)) :
    ∀ bins : List (List (Nat × Nat)),
    0 < bins.length →
    (∀ s ∈ shards, s.2 ≤ M) →
    (bins.map binSize).sum + (shards.map Prod.snd).sum ≤ T →
    (∀ b ∈ bins, binSize b ≤ T / bins.length + M) →
    (shards.foldl placeShard bins).length = bins.length ∧
    (((shards.foldl placeShard bins).flatten : List (Nat × Nat))
        : Multiset (Nat × Nat)) = ↑bins.flatten + ↑shards ∧
    ∀ b ∈ shards.foldl placeShard bins, binSize b ≤ T / bins.length + M := by
  induction shards with
  | nil =>
    intro bins hN hM hT hb
    refine ⟨rfl, by simp, hb⟩
  | cons s rest ih =>
    intro bins hN hM hT hb
    have hne : bins ≠ [] := by
      intro h
      rw [h] at hN
      simp at hN
    obtain ⟨hlen, hsum, hflat, hcases⟩ := placeShard_facts bins s hne
    have hbound : ∀ b ∈ placeShard bins s, binSize b ≤ T / bins.length + M := by
      intro b hbmem
      rcases hcases b hbmem with ⟨b0, hb0mem, rfl, hmin⟩ | hbin
      · have hmul : bins.length * binSize b0 ≤ (bins.map binSize).sum :=
          length_mul_le_sum_sizes bins (binSize b0) hmin
        have hs2 : s.2 ≤ M := hM s (List.mem_cons_self s rest)
        have hT' : bins.length * binSize b0 + s.2 ≤ T := by
          simp only [List.map_cons, List.sum_cons] at hT
          omega
        have hdiv : binSize b0 ≤ (T - s.2) / bins.length :=
          (Nat.le_div_iff_mul_le hN).mpr (by rw [Nat.mul_comm]; omega)
        have hdiv2 : (T - s.2) / bins.length ≤ T / bins.length :=
          Nat.div_le_div_right (Nat.sub_le T s.2)
        have hb0 : binSize (s :: b0) = s.2 + binSize b0 := by
          simp [binSize]
        omega
      · exact hb b hbin
    have hT2 : ((placeShard bins s).map binSize).sum
        + (rest.map Prod.snd).sum ≤ T := by
      rw [hsum]
      simp only [List.map_cons, List.sum_cons] at hT
      omega
    have hb2 : ∀ b ∈ placeShard bins s,
        binSize b ≤ T / (placeShard bins s).length + M := by
      rw [hlen]
      exact hbound
    have hM2 : ∀ x ∈ rest, x.2 ≤ M := fun x hx => hM x (List.mem_cons_of_mem s hx)
    obtain ⟨ih1, ih2, ih3⟩ :=
      ih (placeShard bins s) (by rw [hlen]; exact hN) hM2 hT2 hb2
    refine ⟨?_, ?_, ?_⟩
    · rw [List.foldl_cons, ih1, hlen]
    · rw [List.foldl_cons, ih2, hflat, ← Multiset.cons_coe,
        Multiset.cons_add, Multiset.add_cons]
    · intro b hbmem
      rw [List.foldl_cons] at hbmem
      have := ih3 b hbmem
      rw [hlen] at this
      exact this

lemma snd_le_foldr_max (shards : List (Nat × Nat)) :
    ∀ s ∈ shards, s.2 ≤ (shards.map Prod.snd).foldr max 0 := by
  induction shards with
  | nil =>
    intro s hs
    simp at hs
  | cons a l ih =>
    intro s hs
    rcases List.mem_cons.mp hs with rfl | hmem
    · simp only [List.map_cons, List.foldr_cons]
      exact Nat.le_max_left _ _
    · simp only [List.map_cons, List.foldr_cons]
      exact Nat.le_trans (ih s hmem) (Nat.le_max_right _ _)

lemma flatten_replicate_nil (n : Nat) :
    (List.replicate n ([] : List (Nat × Nat))).flatten = [] := by
  induction n with
  | zero => rfl
  | succ k ih => simp [List.replicate_succ, ih]

/-- C6: for every list of map shards and every reduce-shard count N ≥ 1, the
balancer produces exactly N reduce shards, places each map shard into exactly
one of them (the bins' contents are a permutation of the input), and every
reduce shard's cumulative size is at most (total size)/N (integer division)
plus the largest single map-shard size. -/
theorem C6_balancer_bound (mapShards : List (Nat × Nat)) (N : Nat)
    (hN : 0 < N) :
    (mergeMapShardsIntoReduceShards mapShards N).length = N ∧
    (((mergeMapShardsIntoReduceShards mapShards N).flatten : List (Nat × Nat))
        : Multiset (Nat × Nat)) = ↑mapShards ∧
    ∀ b ∈ mergeMapShardsIntoReduceShards mapShards N,
      binSize b ≤ (mapShards.map Prod.snd).sum / N
        + (mapShards.map Prod.snd).foldr max 0 := by
  have hperm : (sortShardsBySizeDesc mapShards).Perm mapShards :=
    List.perm_insertionSort _ mapShards
  have hMle : ∀ s ∈ sortShardsBySizeDesc mapShards,
      s.2 ≤ (mapShards.map Prod.snd).foldr max 0 := by
    intro s hsmem
    exact snd_le_foldr_max mapShards s (hperm.mem_iff.mp hsmem)
  have hsum : ((sortShardsBySizeDesc mapShards).map Prod.snd).sum
      = (mapShards.map Prod.snd).sum :=
    (hperm.map Prod.snd).sum_eq
  have hrep : (List.replicate N ([] : List (Nat × Nat))).length = N := by
    simp
  have hrepsum : ((List.replicate N ([] : List (Nat × Nat))).map binSize).sum
      = 0 := by
    simp [binSize]
  obtain ⟨h1, h2, h3⟩ :=
    placeFold_facts (mapShards.map Prod.snd).sum
      ((mapShards.map Prod.snd).foldr max 0)
      (sortShardsBySizeDesc mapShards)
      (List.replicate N [])
      (by rw [hrep]; exact hN)
      hMle
      (by rw [hrepsum, hsum]; omega)
      (by
        intro b hbmem
        rw [List.eq_of_mem_replicate hbmem]
        exact Nat.zero_le _)
  refine ⟨?_, ?_, ?_⟩
  · rw [mergeMapShardsIntoReduceShards, h1, hrep]
  · rw [mergeMapShardsIntoReduceShards, h2, flatten_replicate_nil]
    simp only [Multiset.coe_nil, zero_add]
    exact Multiset.coe_eq_coe.mpr hperm
  · intro b hb
    rw [mergeMapShardsIntoReduceShards] at hb
    have := h3 b hb
    rw [hrep] at this
    exact this

theorem C6_witness :
    (mergeMapShardsIntoReduceShards [(0,10),(1,9),(2,5),(3,5)] 2).length = 2 ∧
    (((mergeMapShardsIntoReduceShards [(0,10),(1,9),(2,5),(3,5)] 2).flatten
        : List (Nat × Nat)) : Multiset (Nat × Nat))
      = ↑[((0:Nat),(10:Nat)),(1,9),(2,5),(3,5)] ∧
    ∀ b ∈ mergeMapShardsIntoReduceShards [(0,10),(1,9),(2,5),(3,5)] 2,
      binSize b ≤ (([((0:Nat),(10:Nat)),(1,9),(2,5),(3,5)]).map Prod.snd).sum / 2
        + (([((0:Nat),(10:Nat)),(1,9),(2,5),(3,5)]).map Prod.snd).foldr max 0 :=
  C6_balancer_bound [(0,10),(1,9),(2,5),(3,5)] 2 (by decide)

/-- C7: the spec's concrete example.  Four map shards of sizes 10, 9, 5, 5
balanced into 2 reduce shards end with cumulative sizes 15 and 14 (10 paired
with 5, and 9 paired with 5), not 19 and 10. -/
theorem C7_balancer_example :
    (mergeMapShardsIntoReduceShards [(0,10),(1,9),(2,5),(3,5)] 2).map binSize
      = [15, 14] ∧
    ((((mergeMapShardsIntoReduceShards [(0,10),(1,9),(2,5),(3,5)] 2).map binSize)
        : List Nat) : Multiset Nat) = ({15, 14} : Multiset Nat) ∧
    ((((mergeMapShardsIntoReduceShards [(0,10),(1,9),(2,5),(3,5)] 2).map binSize)
        : List Nat) : Multiset Nat) ≠ ({19, 10} : Multiset Nat) := by
  refine ⟨by decide, by decide, by decide⟩

end Shuffle

namespace Shuffle

/-- The observable phases of shuffler.run, shuffle.go lines 28-37, in program
order: the destructive relocation of the map-shard directories, a fatal
x.AssertTrue failure, and the start of the per-reduce-shard merges. -/
inductive RunEvent where
  | relocateMapShards : RunEvent
  | fatalAssert : RunEvent
  | startMerging : RunEvent
deriving DecidableEq, Repr

/-- Control skeleton of shuffler.run, shuffle.go lines 28-37.  The method
FIRST calls mergeMapShardsIntoReduceShards (line 29), which destructively
relocates every map-shard directory into the freshly created reduce-shard
directories, and only THEN runs its assertions (lines 31-32).  After the
relocation, shardDirs() enumerates exactly the ReduceShards directories just
created under TmpDir, so the line-31 assertion passes; the line-32 assertion
compares len(s.opt.shardOutputDirs) — modelled by outputDirsLen — with
s.opt.ReduceShards and aborts fatally on mismatch.  On success the method
proceeds to spawn the per-reduce-shard merge goroutines (lines 34-64). -/
def shufflerRun (reduceShards outputDirsLen : Nat) : List RunEvent :=
  if outputDirsLen = reduceShards then
    [RunEvent.relocateMapShards, RunEvent.startMerging]
  else
    [RunEvent.relocateMapShards, RunEvent.fatalAssert]

/-- C8 counterexample: with 2 configured reduce shards but only 1 output
directory, the very first event of shuffler.run is the destructive relocation
of the map-shard directories; the fatal configuration check fires only after
it, refuting the claim that the precondition check runs before any work
starts. -/
theorem C8_counterexample :
    shufflerRun 2 1 = [RunEvent.relocateMapShards, RunEvent.fatalAssert] ∧
    (shufflerRun 2 1).head? = some RunEvent.relocateMapShards ∧
    (shufflerRun 2 1).head? ≠ some RunEvent.fatalAssert := by
  refine ⟨by decide, by decide, by decide⟩

/-- C8 (amended): whenever the configured output-directory count mismatches
the reduce-shard count, shuffler.run does fail fatally on the x.AssertTrue
check of line 32 and never starts merging — but the check runs only AFTER
the destructive relocation of the map-shard directories performed by
mergeMapShardsIntoReduceShards at line 29, not before any work starts. -/
theorem C8_assert_after_relocation (reduceShards outputDirsLen : Nat)
    (h : outputDirsLen ≠ reduceShards) :
    shufflerRun reduceShards outputDirsLen
      = [RunEvent.relocateMapShards, RunEvent.fatalAssert] ∧
    RunEvent.startMerging ∉ shufflerRun reduceShards outputDirsLen := by
  rw [shufflerRun, if_neg h]
  exact ⟨rfl, by decide⟩

theorem C8_witness :
    shufflerRun 5 3 = [RunEvent.relocateMapShards, RunEvent.fatalAssert] ∧
    RunEvent.startMerging ∉ shufflerRun 5 3 :=
  C8_assert_after_relocation 5 3 (by decide)

end Shuffle
